import Mathlib

/-!
Shallow embedding of the transaction-log Domain supervisor
(src/searchlib/src/vespa/searchlib/transactionlog/domain.cpp).

The Domain owns an ordered set of segments (DomainPart), an in-memory
batching Chunk, and a set of visiting Sessions.  Stateful C++ methods are
embedded as explicit state-passing functions over a Domain structure;
the single-writer execution context becomes an explicit queue of pending
chunks, drained by folding doCommit over it; fallible operations return
Except.  Collaborators that are not part of the sampled source
(DomainPart, Packet, Session internals) are modelled from the contracts
the specification gives for them; each such definition is marked.
-/

namespace TransLog

/-- Serial-number range: frm is the exclusive lower bound, toS (to) the inclusive
upper bound, following the convention stated by the specification. -/
structure SerialNumRange where
  frm : Nat
  toS : Nat
deriving DecidableEq, Repr

/-- Modelled from the spec: one logged record of a Packet, carrying its
serial number and a measurable payload byte size (the on-disk byte layout
is out of scope). -/
structure Entry where
  serial : Nat
  dataSize : Nat
deriving DecidableEq, Repr

/-- Modelled from the spec: a Packet is an ordered batch of (serial, payload)
records together with its SerialNumRange; it has a measurable byte size. -/
structure Packet where
  entries : List Entry
  range : SerialNumRange
deriving DecidableEq, Repr

def Packet.emptyP : Packet := ⟨[], ⟨0, 0⟩⟩

def Packet.sizeBytes (p : Packet) : Nat := (p.entries.map Entry.dataSize).sum

/-- Modelled from the spec: two packets merge preserving serial order; the
first merge into an empty packet adopts the incoming packet wholesale, a
later merge appends the records and extends the range upper bound. -/
def Packet.merge (p q : Packet) : Packet :=
  if p.entries.isEmpty then q
  else ⟨p.entries ++ q.entries, ⟨p.range.frm, q.range.toS⟩⟩

/-- Modelled from the spec: a segment (DomainPart) is identified by its
starting serial, owns a contiguous SerialNumRange, has size/byteSize
accessors, a last-synced serial mark, and is mutable only while open. -/
structure DomainPart where
  startSerial : Nat
  range : SerialNumRange
  numEntries : Nat
  byteSize : Nat
  synced : Nat
  closed : Bool
deriving DecidableEq, Repr

/-- Modelled from the spec: a freshly opened segment starting at serial s
holds no records yet, its range is the degenerate (s, s). -/
def DomainPart.fresh (s : Nat) : DomainPart := ⟨s, ⟨s, s⟩, 0, 0, 0, false⟩

/-- Modelled from the spec: DomainPart.commit appends a packet to the open
segment, extending the owned range to the packet upper bound and growing
size and byteSize accordingly. -/
def DomainPart.commitPacket (dp : DomainPart) (p : Packet) : DomainPart :=
  { dp with range := ⟨dp.range.frm, p.range.toS⟩,
            numEntries := dp.numEntries + p.entries.length,
            byteSize := dp.byteSize + p.sizeBytes }

/-- Modelled from the spec: DomainPart.sync records the durable mark, after
which getSynced on the part reports the last serial written so far. -/
def DomainPart.syncPart (dp : DomainPart) : DomainPart := { dp with synced := dp.range.toS }

def DomainPart.closePart (dp : DomainPart) : DomainPart := { dp with closed := true }

/-- Modelled from the spec: DomainPart.erase(to) truncates the segment down
to the given serial, advancing its visible range start, never past it. -/
def DomainPart.eraseTo (dp : DomainPart) (toS : Nat) : DomainPart :=
  { dp with range := ⟨max dp.range.frm toS, dp.range.toS⟩ }

/-- Modelled from the spec: a Session holds a start time and the lifecycle
flags consulted by cleanSessions (in-sync, finished). -/
structure Session where
  startTime : Nat
  inSync : Bool
  finished : Bool
deriving DecidableEq, Repr

/-- DomainConfig as used by Domain: encoding and compression are passed
through to segments, the three limits and the fsync flag drive batching. -/
structure DomainConfig where
  encoding : Nat
  compressionLevel : Nat
  chunkSizeLimit : Nat
  chunkAgeLimit : Nat
  partSizeLimit : Nat
  fsyncOnCommit : Bool
deriving DecidableEq, Repr

/-- Chunk: the in-memory accumulation buffer (Domain::Chunk). -/
structure Chunk where
  data : Packet
  callBacks : List Nat
  firstArrivalTime : Nat
deriving DecidableEq, Repr

/-- A fresh Chunk: empty packet, no callbacks (Domain::Chunk::Chunk). -/
def Chunk.fresh : Chunk := ⟨Packet.emptyP, [], 0⟩

/-- Domain::Chunk::add: records the first-arrival time on first use, merges
the packet, registers the callback. -/
def Chunk.add (c : Chunk) (p : Packet) (cb : Nat) (now : Nat) : Chunk :=
  { data := c.data.merge p,
    callBacks := c.callBacks ++ [cb],
    firstArrivalTime := if c.callBacks.isEmpty then now else c.firstArrivalTime }

/-- Domain::Chunk::age: zero while no callback has been registered,
otherwise now minus the first-arrival time. -/
def Chunk.age (c : Chunk) (now : Nat) : Nat :=
  if c.callBacks.isEmpty then 0 else now - c.firstArrivalTime

def Chunk.sizeBytes (c : Chunk) : Nat := c.data.sizeBytes

/-- The segment map of a Domain: an association list ordered by starting
serial, mirroring the std::map keyed by part id. -/
abbrev PartsMap := List (Nat × DomainPart)

/-- Apply f to the value of the last (highest-keyed) map entry, as the C++
code does through the rbegin iterator. -/
def mapLast (f : DomainPart → DomainPart) : PartsMap → PartsMap
  | [] => []
  | [kv] => [(kv.1, f kv.2)]
  | kv :: kv2 :: rest => kv :: mapLast f (kv2 :: rest)

/-- Ordered insertion keyed by starting serial (std::map operator[]). -/
def insertPart (l : PartsMap) (k : Nat) (dp : DomainPart) : PartsMap :=
  match l with
  | [] => [(k, dp)]
  | kv :: rest =>
    if k < kv.1 then (k, dp) :: kv :: rest
    else if k = kv.1 then (k, dp) :: rest
    else kv :: insertPart rest k dp

/-- In-place update of the part stored under key k, modelling a mutation
performed through the shared pointer held in the map. -/
def updateKey (l : PartsMap) (k : Nat) (f : DomainPart → DomainPart) : PartsMap :=
  match l with
  | [] => []
  | kv :: rest => if kv.1 = k then (kv.1, f kv.2) :: rest else kv :: updateKey rest k f

/-- The Domain state: configuration, active Chunk, last accepted serial,
ordered segment map, the queue of chunks handed to the single-writer
context but not yet written, the pending-sync flag and the session map. -/
structure Domain where
  config : DomainConfig
  currentChunk : Chunk
  lastSerial : Nat
  parts : PartsMap
  queue : List Chunk
  pendingSync : Bool
  sessions : List (Nat × Session)
  sessionId : Nat
deriving DecidableEq, Repr

/-- Domain::begin: range start of the first segment, 0 when none. -/
def Domain.beginSerial (d : Domain) : Nat :=
  match d.parts.head? with
  | none => 0
  | some kv => kv.2.range.frm

/-- Domain::end: range upper bound of the last segment, 0 when none. -/
def Domain.endSerial (d : Domain) : Nat :=
  match d.parts.getLast? with
  | none => 0
  | some kv => kv.2.range.toS

/-- Domain::getSynced: the tail segment synced mark, falling back to the
previous segment mark when the tail mark is still zero. -/
def Domain.getSynced (d : Domain) : Nat :=
  match d.parts.getLast? with
  | none => 0
  | some kv =>
    if kv.2.synced = 0 ∧ 2 ≤ d.parts.length then
      (d.parts.dropLast.getLastD (0, DomainPart.fresh 0)).2.synced
    else kv.2.synced

/-- Domain::findPart: ordered lookup, successor search then step back.
pre/post are the portions of the sorted map below and from upper_bound(s). -/
def Domain.findPart (d : Domain) (s : Nat) : Option DomainPart :=
  let pre := d.parts.takeWhile (fun kv => kv.1 ≤ s)
  let post := d.parts.dropWhile (fun kv => kv.1 ≤ s)
  if d.parts.isEmpty = false ∧ pre.isEmpty = false then
    let prev := pre.getLastD (0, DomainPart.fresh 0)
    if prev.2.range.toS > s then some prev.2
    else post.head?.map (fun kv => kv.2)
  else post.head?.map (fun kv => kv.2)

/-- Domain::cleanSessions: drop every session that is in-sync or finished. -/
def cleanS (l : List (Nat × Session)) : List (Nat × Session) :=
  l.filter (fun kv => ¬ (kv.2.inSync ∨ kv.2.finished))

/-- Domain::grabCurrentChunk: swap the active chunk for a fresh one. -/
def Domain.grabCurrentChunk (d : Domain) : Domain × Chunk :=
  ({d with currentChunk := Chunk.fresh}, d.currentChunk)

/-- Domain::commitChunk: hand a non-empty chunk to the single-writer
context (modelled by appending to the queue) and report whether a write
task was dispatched. -/
def Domain.commitChunk (d : Domain) (c : Chunk) : Domain × Bool :=
  if c.data.entries.isEmpty then (d, false)
  else ({d with queue := d.queue ++ [c]}, true)

/-- Domain::commitIfFull: flush the active chunk once its byte size
exceeds the configured chunk-size limit. -/
def Domain.commitIfFull (d : Domain) : Domain × Bool :=
  if d.currentChunk.sizeBytes > d.config.chunkSizeLimit then
    let g := d.grabCurrentChunk
    g.1.commitChunk g.2
  else (d, false)

/-- Domain::commit: reject a packet whose range lower bound does not
exceed the last accepted serial, otherwise advance lastSerial, merge into
the active chunk, register the callback and flush if the chunk is full.
The returned flag reports whether a flush was dispatched. -/
def Domain.commit (d : Domain) (p : Packet) (cb : Nat) (now : Nat) :
    Domain × Except String Bool :=
  if d.lastSerial ≥ p.range.frm then
    (d, Except.error "Incoming serial number must be bigger than the last one")
  else
    let d1 := {d with lastSerial := p.range.toS,
                      currentChunk := d.currentChunk.add p cb now}
    let r := d1.commitIfFull
    (r.1, Except.ok r.2)

/-- Domain::commitIfStale: flush the active chunk when it is older than
the configured age limit and its packet is non-empty. -/
def Domain.commitIfStale (d : Domain) (now : Nat) : Domain × Bool :=
  if d.currentChunk.age now > d.config.chunkAgeLimit ∧
     d.currentChunk.data.entries.isEmpty = false then
    let g := d.grabCurrentChunk
    g.1.commitChunk g.2
  else (d, false)

/-- Observable actions of the single writer, used to state the rotation
protocol of Domain::doCommit. -/
inductive Ev where
  | waitSync : Ev
  | forceSync : Ev
  | closePart : Nat → Ev
  | openPart : Nat → Ev
  | writePart : Nat → Packet → Ev
  | syncPart : Nat → Ev
deriving DecidableEq, Repr

/-- Domain::doCommit, run on the single writer: when the open segment
byte size exceeds the segment-size limit, wait out any in-flight sync,
force and wait a fresh sync, close the segment and open a new one keyed
at the first serial of the chunk; then write the packet into the tail
segment, sync it when fsync-on-commit is configured, and clean sessions.
The event list records the order of the observable actions. -/
def Domain.doCommit (d : Domain) (chunk : Chunk) : Domain × List Ev :=
  let packet := chunk.data
  let kdp0 := d.parts.getLastD (0, DomainPart.fresh 0)
  let e := packet.entries.headD ⟨0, 0⟩
  if kdp0.2.byteSize > d.config.partSizeLimit then
    let parts1 := mapLast (fun q => (DomainPart.syncPart q).closePart) d.parts
    let parts2 := insertPart parts1 e.serial (DomainPart.fresh e.serial)
    let kdp1 := parts2.getLastD (0, DomainPart.fresh 0)
    let parts3 := updateKey parts2 kdp1.1 (fun q => q.commitPacket packet)
    let parts4 := if d.config.fsyncOnCommit then
        updateKey parts3 kdp1.1 DomainPart.syncPart
      else parts3
    ({d with parts := parts4, pendingSync := false, sessions := cleanS d.sessions},
     [Ev.waitSync, Ev.forceSync, Ev.closePart kdp0.1, Ev.openPart e.serial,
      Ev.writePart kdp1.1 packet] ++
     (if d.config.fsyncOnCommit then [Ev.syncPart kdp1.1] else []))
  else
    let parts3 := updateKey d.parts kdp0.1 (fun q => q.commitPacket packet)
    let parts4 := if d.config.fsyncOnCommit then
        updateKey parts3 kdp0.1 DomainPart.syncPart
      else parts3
    ({d with parts := parts4, sessions := cleanS d.sessions},
     [Ev.writePart kdp0.1 packet] ++
     (if d.config.fsyncOnCommit then [Ev.syncPart kdp0.1] else []))

/-- Run the single writer over a list of pending chunks in order. -/
def drainList (d : Domain) : List Chunk → Domain
  | [] => d
  | c :: cs => drainList (d.doCommit c).1 cs

/-- Drain the single-writer context: process every queued chunk. -/
def Domain.drainAll (d : Domain) : Domain :=
  drainList {d with queue := []} d.queue

/-- Domain::~Domain: flush the active chunk (commitChunk skips it when
empty) and drain the single writer.  Also returns the queue as it stood
when the writer was shut down, i.e. every write the writer still had to
perform. -/
def Domain.destruct (d : Domain) : Domain × List Chunk :=
  let g := d.grabCurrentChunk
  let r := g.1.commitChunk g.2
  (r.1.drainAll, r.1.queue)

/-- The removal loop of Domain::erase: drop leading segments whose range
upper bound is below the erase point, never dropping the last remaining segment. -/
def erasePartsLoop (toS : Nat) : PartsMap → PartsMap
  | [] => []
  | kv :: rest =>
    if rest.isEmpty = false ∧ kv.2.range.toS < toS then erasePartsLoop toS rest
    else kv :: rest

/-- Domain::erase: run the removal loop, then truncate the first remaining
segment down when its range still reaches the erase point. -/
def Domain.erase (d : Domain) (toS : Nat) : Domain :=
  let parts1 := erasePartsLoop toS d.parts
  let parts2 :=
    match parts1 with
    | [] => []
    | kv :: rest =>
      if kv.2.range.toS ≥ toS then (kv.1, kv.2.eraseTo toS) :: rest else kv :: rest
  {d with parts := parts2}

/-- Domain::startSession: unknown ids report the failure sentinel without
touching the session map; a known session gets its start time set and is
dispatched, and is removed again when the dispatch fails. -/
def Domain.startSession (d : Domain) (sessionId : Nat) (dispatchOk : Bool) (now : Nat) :
    Domain × Int :=
  match d.sessions.lookup sessionId with
  | none => (d, -1)
  | some _ =>
    let upd := fun (kv : Nat × Session) =>
      if kv.1 = sessionId then (kv.1, {kv.2 with startTime := now}) else kv
    let d1 := {d with sessions := d.sessions.map upd}
    if dispatchOk then (d1, 0)
    else ({d1 with sessions := d1.sessions.eraseP (fun kv => kv.1 == sessionId)}, -1)

/-- The character for a single decimal digit value. -/
def digitChar10 (d : Nat) : Char := Char.ofNat (48 + d)

/-- Fuel-driven decimal printer: big-endian digit characters of n, empty
when n is 0 (the zero padding below always supplies at least sixteen
characters); the fuel argument only forces structural recursion. -/
def natCharsAux : Nat → Nat → List Char
  | 0, _ => []
  | fuel + 1, n =>
    if n = 0 then [] else natCharsAux fuel (n / 10) ++ [digitChar10 (n % 10)]

/-- Big-endian decimal digit characters of n (empty for 0). -/
def natChars (n : Nat) : List Char := natCharsAux n n

/-- The printf %016 rendering used for segment file names: the decimal
digits of n, zero-padded on the left to a minimum width of 16. -/
def natPad16 (n : Nat) : List Char :=
  List.replicate (16 - (natChars n).length) '0' ++ natChars n

/-- The whitespace test of the C locale, as consulted by strtoull. -/
def isSpaceC (c : Char) : Bool :=
  c = ' ' ∨ c = '\t' ∨ c = '\n' ∨ c = '\x0b' ∨ c = '\x0c' ∨ c = '\r'

/-- Accumulate the value of a leading run of decimal digit characters. -/
def digitsVal : List Char → Nat → Nat
  | c :: cs, acc => if c.isDigit then digitsVal cs (acc * 10 + (c.toNat - 48)) else acc
  | [], acc => acc

/-- Clamp at ULLONG_MAX, the saturation strtoull performs on overflow. -/
def ullClamp (v : Nat) : Nat := min v (2 ^ 64 - 1)

/-- Model of strtoull(p, NULL, 10): skip C whitespace, honour an optional
sign (a negative value wraps modulo 2^64), read decimal digits, saturate
at ULLONG_MAX. -/
def strtoull10 (cs : List Char) : Nat :=
  let cs1 := cs.dropWhile isSpaceC
  match cs1 with
  | '-' :: rest => (2 ^ 64 - ullClamp (digitsVal rest 0)) % 2 ^ 64
  | '+' :: rest => ullClamp (digitsVal rest 0)
  | _ => ullClamp (digitsVal cs1 0)

/-- The per-entry filter of Domain::scanDir: skip dot entries, require the
domain name, a dash, then accept exactly when re-rendering the parsed
number reproduces the entry name; yields the starting serial. -/
def scanDirAccept (dn : List Char) (ename : List Char) : Option Nat :=
  if ename = ['.'] ∨ ename = ['.', '.'] then none
  else if ename.take dn.length = dn then
    match ename.drop dn.length with
    | '-' :: p =>
      let num := strtoull10 p
      if ename = dn ++ '-' :: natPad16 num then some num else none
    | _ => none
  else none

/-- Ordered insertion, the building block modelling std::sort. -/
def insertSorted (n : Nat) : List Nat → List Nat
  | [] => [n]
  | m :: rest => if n ≤ m then n :: m :: rest else m :: insertSorted n rest

/-- Ascending sort of the collected serials (std::sort). -/
def sortSerials (l : List Nat) : List Nat := l.foldr insertSorted []

/-- Domain::scanDir: filter the directory entries through the exact-form
check and return the accepted starting serials in ascending order. -/
def scanDir (dn : List Char) (names : List (List Char)) : List Nat :=
  sortSerials (names.filterMap (scanDirAccept dn))

/-- Range start of the first map entry: the begin observable applied
directly to a parts map (beginSerial d = headFrm d.parts). -/
def headFrm : PartsMap → Nat
  | [] => 0
  | kv :: _ => kv.2.range.frm

/-- Modelled from the spec: well-formedness of a Packet as the data model
states it — a non-empty ordered batch whose record serials lie in the
half-open range (frm, toS]. -/
def Packet.wf (p : Packet) : Prop :=
  p.entries ≠ [] ∧ ∀ e ∈ p.entries, p.range.frm < e.serial ∧ e.serial ≤ p.range.toS

instance instDecPacketWf (p : Packet) : Decidable p.wf :=
  inferInstanceAs (Decidable (p.entries ≠ [] ∧
    ∀ e ∈ p.entries, p.range.frm < e.serial ∧ e.serial ≤ p.range.toS))

/-- A packet sequence is a valid commit chain from serial s when each
packet range lower bound strictly exceeds the upper bound of its
predecessor (s for the first packet). -/
def chainFrom : Nat → List Packet → Prop
  | _, [] => True
  | s, p :: ps => s < p.range.frm ∧ chainFrom p.range.toS ps

instance instDecChainFrom : (s : Nat) → (l : List Packet) → Decidable (chainFrom s l)
  | _, [] => isTrue trivial
  | s, p :: ps =>
    haveI := instDecChainFrom p.range.toS ps
    inferInstanceAs (Decidable (s < p.range.frm ∧ chainFrom p.range.toS ps))

/-- Range upper bound of the last packet of a list, with a default. -/
def lastToD (dflt : Nat) (l : List Packet) : Nat :=
  match l.getLast? with
  | none => dflt
  | some p => p.range.toS

/-- All committed-but-unwritten data, in write order: the packets of the
queued chunks followed by the active chunk packet when non-empty. -/
def Domain.pipeline (d : Domain) : List Packet :=
  d.queue.map Chunk.data ++
    (if d.currentChunk.data.entries.isEmpty then [] else [d.currentChunk.data])

/-- Run a sequence of commits, stopping at the first rejection. -/
def Domain.runCommits (d : Domain) (now : Nat) : List Packet → Except String Domain
  | [] => Except.ok d
  | p :: ps =>
    match d.commit p 0 now with
    | (d2, Except.ok _) => d2.runCommits now ps
    | (_, Except.error e) => Except.error e

/-- Invariant tying a domain to the serial t of the last accepted commit:
the segment map is non-empty with strictly sorted keys each at most its
segment upper bound, the pipeline is a valid chain continuing from the
segment-set end, every pipeline packet is well-formed, the pipeline ends
at t, and lastSerial is t. -/
structure CommitInv (d : Domain) (t : Nat) : Prop where
  pne : d.parts ≠ []
  sorted : d.parts.Pairwise (fun a b => a.1 < b.1)
  keyle : ∀ kv ∈ d.parts, kv.1 ≤ kv.2.range.toS
  chain : chainFrom d.endSerial d.pipeline
  wfall : ∀ p ∈ d.pipeline, p.wf
  lastto : lastToD d.endSerial d.pipeline = t
  lser : d.lastSerial = t

/-! Concrete fixtures used by counterexamples and witnesses. -/

def exCfg : DomainConfig := ⟨0, 9, 100, 50, 1000, false⟩

def exCfg3 : DomainConfig := ⟨0, 9, 100, 50, 5, true⟩

def exPart0 : DomainPart := ⟨0, ⟨0, 5⟩, 1, 10, 0, true⟩

def exPart5 : DomainPart := ⟨5, ⟨5, 9⟩, 1, 10, 3, false⟩

def exDomain : Domain :=
  ⟨exCfg, Chunk.fresh, 9, [(0, exPart0), (5, exPart5)], [], false,
   [(7, ⟨0, false, false⟩)], 8⟩

def exPacket : Packet := ⟨[⟨10, 4⟩], ⟨9, 10⟩⟩

def exDomainStale : Domain :=
  ⟨exCfg, ⟨⟨[⟨10, 4⟩], ⟨9, 10⟩⟩, [0], 1⟩, 10, [(0, exPart0), (5, exPart5)], [], false, [], 8⟩

def exD3 : Domain :=
  ⟨exCfg3, Chunk.fresh, 5, [(0, ⟨0, ⟨0, 5⟩, 3, 30, 0, false⟩)], [], true, [], 1⟩

def exChunk3 : Chunk := ⟨⟨[⟨6, 7⟩, ⟨7, 8⟩], ⟨5, 7⟩⟩, [0], 0⟩

def exD4 : Domain :=
  ⟨exCfg, Chunk.fresh, 10, [(5, ⟨5, ⟨5, 10⟩, 1, 10, 0, false⟩)], [], false, [], 1⟩

def exPart6 : DomainPart := ⟨0, ⟨0, 5⟩, 1, 10, 0, false⟩

def exD6 : Domain := ⟨exCfg, Chunk.fresh, 5, [(0, exPart6)], [], false, [], 1⟩

def exD2 : Domain := ⟨exCfg, Chunk.fresh, 0, [(0, DomainPart.fresh 0)], [], false, [], 1⟩

def exPs : List Packet := [⟨[⟨2, 10⟩], ⟨1, 2⟩⟩, ⟨[⟨4, 10⟩], ⟨3, 4⟩⟩]

/-- A directory entry whose serial needs seventeen decimal digits. -/
def exName17 : List Char :=
  ['d', '-', '1', '0', '0', '0', '0', '0', '0', '0', '0', '0', '0', '0', '0', '0', '0', '0', '0']

/-! Helper lemmas. -/

theorem sizeBytes_pos_entries {p : Packet} (h : 0 < p.sizeBytes) :
    p.entries.isEmpty = false := by
  cases hp : p.entries with
  | nil => rw [Packet.sizeBytes, hp] at h; simp at h
  | cons a l => simp [hp]

/-- C1: a commit whose packet range lower bound does not exceed lastSerial
fails with the protocol-violation error and leaves the whole domain state
(lastSerial and segment set included) unchanged; a commit whose lower
bound exceeds lastSerial succeeds, sets lastSerial to the packet upper
bound, merges the packet and callback into the active chunk, and
dispatches a flush to the writer exactly when the chunk byte size then
exceeds the configured chunk-size limit. -/
theorem c1_commit_protocol (d : Domain) (p : Packet) (cb now : Nat) :
    (p.range.frm ≤ d.lastSerial →
      d.commit p cb now =
        (d, Except.error "Incoming serial number must be bigger than the last one"))
    ∧ (d.lastSerial < p.range.frm →
      d.commit p cb now =
        ({d with lastSerial := p.range.toS,
                 currentChunk :=
                   if (d.currentChunk.add p cb now).sizeBytes > d.config.chunkSizeLimit
                   then Chunk.fresh else d.currentChunk.add p cb now,
                 queue :=
                   if (d.currentChunk.add p cb now).sizeBytes > d.config.chunkSizeLimit
                   then d.queue ++ [d.currentChunk.add p cb now] else d.queue},
         Except.ok (decide
           ((d.currentChunk.add p cb now).sizeBytes > d.config.chunkSizeLimit)))) := by
  constructor
  · intro h
    simp [Domain.commit, h]
  · intro h
    have hnot : ¬ (d.lastSerial ≥ p.range.frm) := Nat.not_le.mpr h
    by_cases hs : (d.currentChunk.add p cb now).sizeBytes > d.config.chunkSizeLimit
    · have hne : (d.currentChunk.add p cb now).data.entries.isEmpty = false :=
        sizeBytes_pos_entries (Nat.lt_of_le_of_lt (Nat.zero_le _) hs)
      have hs2 : d.config.chunkSizeLimit < (d.currentChunk.add p cb now).data.sizeBytes := hs
      simp [Domain.commit, hnot, Domain.commitIfFull, Domain.grabCurrentChunk,
            Domain.commitChunk, Chunk.sizeBytes, hs2, hne]
    · have hs2 : ¬ (d.config.chunkSizeLimit < (d.currentChunk.add p cb now).data.sizeBytes) := hs
      simp [Domain.commit, hnot, Domain.commitIfFull, Chunk.sizeBytes, hs2]

/-- C5: getSynced returns the tail segment synced mark; when that mark is
zero and a previous segment exists it returns the previous segment mark;
when the mark is zero and no previous segment exists (or there is no
segment at all) it returns 0. -/
theorem c5_getSynced (d : Domain) :
    (d.parts.getLast? = none → d.getSynced = 0)
    ∧ (∀ kv, d.parts.getLast? = some kv → kv.2.synced ≠ 0 → d.getSynced = kv.2.synced)
    ∧ (∀ kv kv2, d.parts.getLast? = some kv → kv.2.synced = 0 →
        d.parts.dropLast.getLast? = some kv2 → d.getSynced = kv2.2.synced)
    ∧ (∀ kv, d.parts.getLast? = some kv → kv.2.synced = 0 → d.parts.dropLast = [] →
        d.getSynced = 0) := by
  refine ⟨?_, ?_, ?_, ?_⟩
  · intro h
    simp [Domain.getSynced, h]
  · intro kv h hs
    simp [Domain.getSynced, h, hs]
  · intro kv kv2 h hs hprev
    have hne : d.parts ≠ [] := by
      intro hnil
      rw [hnil] at h
      simp at h
    have hlen : 2 ≤ d.parts.length := by
      have h1 : d.parts.dropLast ≠ [] := by
        intro hnil
        rw [hnil] at hprev
        simp at hprev
      have h2 : d.parts.dropLast.length = d.parts.length - 1 := d.parts.length_dropLast
      have h3 : d.parts.dropLast.length ≠ 0 := by
        intro h0
        exact h1 (List.length_eq_zero.mp h0)
      omega
    simp [Domain.getSynced, h, hs, hlen, List.getLastD_eq_getLast?, hprev]
  · intro kv h hs hprev
    have hlen : ¬ (2 ≤ d.parts.length) := by
      have h2 : d.parts.dropLast.length = d.parts.length - 1 := d.parts.length_dropLast
      have h3 : d.parts.dropLast.length = 0 := by rw [hprev]; rfl
      omega
    simp [Domain.getSynced, h, hs, hlen]

/-- C7: commitIfStale dispatches a flush and returns true exactly when the
active chunk packet is non-empty and the chunk age exceeds the configured
age limit; on a flush the chunk moves to the writer queue and is replaced
by a fresh one, otherwise the domain is unchanged; a chunk with no
registered callback (in particular a fresh, empty chunk) has age zero. -/
theorem c7_commitIfStale (d : Domain) (now : Nat) :
    ((d.commitIfStale now).2 = true ↔
      (d.currentChunk.age now > d.config.chunkAgeLimit ∧
       d.currentChunk.data.entries.isEmpty = false))
    ∧ ((d.commitIfStale now).2 = true →
        d.commitIfStale now =
          ({d with currentChunk := Chunk.fresh, queue := d.queue ++ [d.currentChunk]}, true))
    ∧ ((d.commitIfStale now).2 = false → d.commitIfStale now = (d, false))
    ∧ (∀ c : Chunk, c.callBacks = [] → c.age now = 0) := by
  by_cases hC : d.currentChunk.age now > d.config.chunkAgeLimit ∧
      d.currentChunk.data.entries.isEmpty = false
  · have hres : d.commitIfStale now =
        ({d with currentChunk := Chunk.fresh, queue := d.queue ++ [d.currentChunk]}, true) := by
      simp [Domain.commitIfStale, hC, Domain.grabCurrentChunk, Domain.commitChunk, hC.2]
    refine ⟨?_, ?_, ?_, ?_⟩
    · rw [hres]; simpa using hC
    · intro _; exact hres
    · intro hfalse; rw [hres] at hfalse; simp at hfalse
    · intro c hc; simp [Chunk.age, hc]
  · have hres : d.commitIfStale now = (d, false) := by
      unfold Domain.commitIfStale
      rw [if_neg hC]
    refine ⟨?_, ?_, ?_, ?_⟩
    · rw [hres]; simpa using hC
    · intro htrue; rw [hres] at htrue; simp at htrue
    · intro _; exact hres
    · intro c hc; simp [Chunk.age, hc]

/-! Session-map helper lemmas for C9. -/

theorem lookup_eq_none_of_not_mem (l : List (Nat × Session)) (sid : Nat)
    (h : ∀ kv ∈ l, kv.1 ≠ sid) : l.lookup sid = none := by
  induction l with
  | nil => rfl
  | cons kv rest ih =>
    obtain ⟨k, v⟩ := kv
    have hk : (sid == k) = false := by
      simp only [beq_eq_false_iff_ne, ne_eq]
      intro he
      exact h (k, v) (List.mem_cons_self (k, v) rest) he.symm
    simp only [List.lookup, hk]
    exact ih (fun kv2 hm => h kv2 (List.mem_cons_of_mem (k, v) hm))

theorem lookup_eraseP_self (l : List (Nat × Session)) (sid : Nat)
    (h : (l.map Prod.fst).Nodup) :
    (l.eraseP (fun kv => kv.1 == sid)).lookup sid = none := by
  induction l with
  | nil => rfl
  | cons kv rest ih =>
    obtain ⟨k, v⟩ := kv
    rw [List.map_cons, List.nodup_cons] at h
    by_cases hk : k = sid
    · have hstep : List.eraseP (fun kv : Nat × Session => kv.1 == sid) ((k, v) :: rest) =
          rest := by
        simp [List.eraseP_cons, hk]
      rw [hstep]
      apply lookup_eq_none_of_not_mem
      intro kv2 hm he
      apply h.1
      rw [hk, ← he]
      exact List.mem_map.mpr ⟨kv2, hm, rfl⟩
    · have hstep : List.eraseP (fun kv : Nat × Session => kv.1 == sid) ((k, v) :: rest) =
          (k, v) :: rest.eraseP (fun kv => kv.1 == sid) := by
        simp [List.eraseP_cons, hk]
      rw [hstep]
      have hk2 : (sid == k) = false := by
        simp only [beq_eq_false_iff_ne, ne_eq]
        intro he
        exact hk he.symm
      simp only [List.lookup, hk2]
      exact ih h.2

theorem map_fst_upd (l : List (Nat × Session)) (f : Nat × Session → Nat × Session)
    (hf : ∀ kv, (f kv).1 = kv.1) : (l.map f).map Prod.fst = l.map Prod.fst := by
  induction l with
  | nil => rfl
  | cons kv rest ih => simp [hf kv, ih]

/-- C9: startSession on an unknown session id returns the failure sentinel
-1 and leaves the whole domain (session map included) unchanged; on a
known id whose dispatch fails it returns -1 and the session is no longer
found in the map; on a known id whose dispatch succeeds it returns 0. -/
theorem c9_startSession (d : Domain) (sid : Nat) (ok : Bool) (now : Nat)
    (hnodup : (d.sessions.map Prod.fst).Nodup) :
    (d.sessions.lookup sid = none → d.startSession sid ok now = (d, -1))
    ∧ (∀ s, d.sessions.lookup sid = some s → ok = true →
        (d.startSession sid ok now).2 = 0)
    ∧ (∀ s, d.sessions.lookup sid = some s → ok = false →
        (d.startSession sid ok now).2 = -1 ∧
        (d.startSession sid ok now).1.sessions.lookup sid = none) := by
  refine ⟨?_, ?_, ?_⟩
  · intro h
    simp [Domain.startSession, h]
  · intro s h hok
    simp [Domain.startSession, h, hok]
  · intro s h hok
    have hupd : ∀ kv : Nat × Session,
        ((fun kv : Nat × Session =>
          if kv.1 = sid then (kv.1, {kv.2 with startTime := now}) else kv) kv).1 = kv.1 := by
      intro kv
      by_cases hkv : kv.1 = sid <;> simp [hkv]
    constructor
    · simp [Domain.startSession, h, hok]
    · simp only [Domain.startSession, h, hok]
      simp only [Bool.false_eq_true, if_false]
      apply lookup_eraseP_self
      rw [map_fst_upd _ _ hupd]
      exact hnodup

/-- C10: commitChunk dispatches a write task (appends the chunk to the
single-writer queue) and returns true exactly when the chunk packet is
non-empty; for an empty packet it returns false and dispatches nothing, so
destroying a domain whose active chunk is empty hands the writer no new
write before shutdown. -/
theorem c10_commitChunk_empty (d : Domain) (c : Chunk) :
    ((d.commitChunk c).2 = true ↔ c.data.entries.isEmpty = false)
    ∧ (c.data.entries.isEmpty = true → d.commitChunk c = (d, false))
    ∧ (c.data.entries.isEmpty = false →
        d.commitChunk c = ({d with queue := d.queue ++ [c]}, true))
    ∧ (d.currentChunk.data.entries.isEmpty = true → (d.destruct).2 = d.queue) := by
  refine ⟨?_, ?_, ?_, ?_⟩
  · by_cases hc : c.data.entries.isEmpty <;> simp [Domain.commitChunk, hc]
  · intro hc; simp [Domain.commitChunk, hc]
  · intro hc; simp [Domain.commitChunk, hc]
  · intro hc
    simp [Domain.destruct, Domain.grabCurrentChunk, Domain.commitChunk, hc]

/-! Parts-map helper lemmas for the rotation protocol. -/

theorem mapLast_append_last (f : DomainPart → DomainPart) (l : PartsMap)
    (kv : Nat × DomainPart) :
    mapLast f (l ++ [kv]) = l ++ [(kv.1, f kv.2)] := by
  induction l with
  | nil => rfl
  | cons a rest ih =>
    cases rest with
    | nil => rfl
    | cons b rest2 =>
      have hstep : mapLast f ((a :: b :: rest2) ++ [kv]) =
          a :: mapLast f ((b :: rest2) ++ [kv]) := rfl
      rw [hstep, ih]
      rfl

theorem mapLast_keys_sub (f : DomainPart → DomainPart) (l : PartsMap) :
    ∀ kv ∈ mapLast f l, kv.1 ∈ l.map Prod.fst := by
  induction l with
  | nil => intro kv h; simp [mapLast] at h
  | cons a rest ih =>
    cases rest with
    | nil =>
      intro kv h
      simp only [mapLast, List.mem_singleton] at h
      subst h
      simp
    | cons b rest2 =>
      intro kv h
      have hstep : mapLast f (a :: b :: rest2) = a :: mapLast f (b :: rest2) := rfl
      rw [hstep] at h
      rcases List.mem_cons.mp h with h1 | h2
      · subst h1; simp
      · have h3 := ih kv h2
        simp only [List.map_cons] at h3 ⊢
        exact List.mem_cons_of_mem _ h3

theorem insertPart_append (l : PartsMap) (k : Nat) (dp : DomainPart)
    (h : ∀ kv ∈ l, kv.1 < k) : insertPart l k dp = l ++ [(k, dp)] := by
  induction l with
  | nil => rfl
  | cons a rest ih =>
    have ha : a.1 < k := h a (List.mem_cons_self a rest)
    have h1 : ¬ (k < a.1) := Nat.lt_asymm ha
    have h2 : ¬ (k = a.1) := fun he => Nat.ne_of_lt ha he.symm
    simp only [insertPart, if_neg h1, if_neg h2, List.cons_append]
    rw [ih (fun kv hm => h kv (List.mem_cons_of_mem a hm))]

theorem updateKey_append_last (l : PartsMap) (k : Nat) (dp : DomainPart)
    (f : DomainPart → DomainPart) (h : ∀ kv ∈ l, kv.1 ≠ k) :
    updateKey (l ++ [(k, dp)]) k f = l ++ [(k, f dp)] := by
  induction l with
  | nil => simp [updateKey]
  | cons a rest ih =>
    have ha : a.1 ≠ k := h a (List.mem_cons_self a rest)
    have ih2 := ih (fun kv hm => h kv (List.mem_cons_of_mem a hm))
    show (if a.1 = k then (a.1, f a.2) :: (rest ++ [(k, dp)])
          else a :: updateKey (rest ++ [(k, dp)]) k f) = a :: (rest ++ [(k, f dp)])
    rw [if_neg ha, ih2]

/-- C3: when the single writer processes a chunk while the open (tail)
segment byte size exceeds the segment-size limit, it first waits for any
in-flight sync, then forces and waits a fresh sync, closes that segment
(which is left synced and closed in the map), opens a new open segment
keyed and starting at the first serial of the chunk, writes the chunk
packet into that new segment, and syncs it immediately exactly when
fsync-on-commit is configured; the event trace records this order. -/
theorem c3_rotation (d : Domain) (c : Chunk)
    (hkeys : ∀ kv ∈ d.parts, kv.1 < (c.data.entries.headD ⟨0, 0⟩).serial)
    (hrot : (d.parts.getLastD (0, DomainPart.fresh 0)).2.byteSize > d.config.partSizeLimit) :
    d.doCommit c =
      ({d with
          parts := mapLast (fun q => (DomainPart.syncPart q).closePart) d.parts ++
            [((c.data.entries.headD ⟨0, 0⟩).serial,
              if d.config.fsyncOnCommit then
                ((DomainPart.fresh (c.data.entries.headD ⟨0, 0⟩).serial).commitPacket
                  c.data).syncPart
              else
                (DomainPart.fresh (c.data.entries.headD ⟨0, 0⟩).serial).commitPacket c.data)],
          pendingSync := false,
          sessions := cleanS d.sessions},
       [Ev.waitSync, Ev.forceSync,
        Ev.closePart (d.parts.getLastD (0, DomainPart.fresh 0)).1,
        Ev.openPart (c.data.entries.headD ⟨0, 0⟩).serial,
        Ev.writePart (c.data.entries.headD ⟨0, 0⟩).serial c.data] ++
       (if d.config.fsyncOnCommit then
          [Ev.syncPart (c.data.entries.headD ⟨0, 0⟩).serial] else [])) := by
  have hkeys2 : ∀ kv ∈ mapLast (fun q => (DomainPart.syncPart q).closePart) d.parts,
      kv.1 < (c.data.entries.headD ⟨0, 0⟩).serial := by
    intro kv hm
    rcases List.mem_map.mp (mapLast_keys_sub _ _ kv hm) with ⟨kv0, hkv0, he⟩
    rw [← he]
    exact hkeys kv0 hkv0
  have h1 : insertPart (mapLast (fun q => (DomainPart.syncPart q).closePart) d.parts)
      (c.data.entries.headD ⟨0, 0⟩).serial
      (DomainPart.fresh (c.data.entries.headD ⟨0, 0⟩).serial) =
      mapLast (fun q => (DomainPart.syncPart q).closePart) d.parts ++
        [((c.data.entries.headD ⟨0, 0⟩).serial,
          DomainPart.fresh (c.data.entries.headD ⟨0, 0⟩).serial)] :=
    insertPart_append _ _ _ hkeys2
  simp only [Domain.doCommit, if_pos hrot, h1, List.getLastD_concat]
  have h3 : updateKey (mapLast (fun q => (DomainPart.syncPart q).closePart) d.parts ++
      [((c.data.entries.headD ⟨0, 0⟩).serial,
        DomainPart.fresh (c.data.entries.headD ⟨0, 0⟩).serial)])
      (c.data.entries.headD ⟨0, 0⟩).serial
      (fun q => q.commitPacket c.data) =
      mapLast (fun q => (DomainPart.syncPart q).closePart) d.parts ++
        [((c.data.entries.headD ⟨0, 0⟩).serial,
          (DomainPart.fresh (c.data.entries.headD ⟨0, 0⟩).serial).commitPacket c.data)] :=
    updateKey_append_last _ _ _ _ (fun kv hm => Nat.ne_of_lt (hkeys2 kv hm))
  rw [h3]
  by_cases hf : d.config.fsyncOnCommit
  · have h4 : updateKey (mapLast (fun q => (DomainPart.syncPart q).closePart) d.parts ++
        [((c.data.entries.headD ⟨0, 0⟩).serial,
          (DomainPart.fresh (c.data.entries.headD ⟨0, 0⟩).serial).commitPacket c.data)])
        (c.data.entries.headD ⟨0, 0⟩).serial DomainPart.syncPart =
        mapLast (fun q => (DomainPart.syncPart q).closePart) d.parts ++
          [((c.data.entries.headD ⟨0, 0⟩).serial,
            ((DomainPart.fresh (c.data.entries.headD ⟨0, 0⟩).serial).commitPacket
              c.data).syncPart)] :=
      updateKey_append_last _ _ _ _ (fun kv hm => Nat.ne_of_lt (hkeys2 kv hm))
    simp only [hf, if_true]
    simpa using h4
  · simp [hf]

/-! Erase-loop helper lemmas for C4. -/

theorem beginSerial_eq_headFrm (d : Domain) : d.beginSerial = headFrm d.parts := by
  cases h : d.parts with
  | nil => simp [Domain.beginSerial, headFrm, h]
  | cons kv rest => simp [Domain.beginSerial, headFrm, h]

theorem loop_subset (t : Nat) (l : PartsMap) :
    ∀ kv ∈ erasePartsLoop t l, kv ∈ l := by
  induction l with
  | nil => intro kv h; simp [erasePartsLoop] at h
  | cons a rest ih =>
    intro kv h
    by_cases hc : rest.isEmpty = false ∧ a.2.range.toS < t
    · rw [erasePartsLoop, if_pos hc] at h
      exact List.mem_cons_of_mem a (ih kv h)
    · rw [erasePartsLoop, if_neg hc] at h
      exact h

theorem loop_ne_nil (t : Nat) (l : PartsMap) (h : l ≠ []) :
    erasePartsLoop t l ≠ [] := by
  induction l with
  | nil => exact absurd rfl h
  | cons a rest ih =>
    by_cases hc : rest.isEmpty = false ∧ a.2.range.toS < t
    · rw [erasePartsLoop, if_pos hc]
      exact ih (by
        intro hr
        rw [hr] at hc
        simp at hc)
    · rw [erasePartsLoop, if_neg hc]
      exact List.cons_ne_nil a rest

theorem loop_getLast? (t : Nat) (l : PartsMap) (h : l ≠ []) :
    (erasePartsLoop t l).getLast? = l.getLast? := by
  induction l with
  | nil => exact absurd rfl h
  | cons a rest ih =>
    by_cases hc : rest.isEmpty = false ∧ a.2.range.toS < t
    · have hr : rest ≠ [] := by
        intro hr
        rw [hr] at hc
        simp at hc
      rw [erasePartsLoop, if_pos hc, ih hr]
      obtain ⟨b, rest2, hb⟩ := List.exists_cons_of_ne_nil hr
      subst hb
      rfl
    · rw [erasePartsLoop, if_neg hc]

theorem chain_head_le (a : Nat × DomainPart) (l : PartsMap)
    (hch : List.Chain' (fun x y => y.2.range.frm = x.2.range.toS) (a :: l))
    (hfr : ∀ kv ∈ a :: l, kv.2.range.frm ≤ kv.2.range.toS) :
    ∀ kv ∈ l, a.2.range.toS ≤ kv.2.range.frm := by
  induction l generalizing a with
  | nil => intro kv h; simp at h
  | cons b rest ih =>
    intro kv h
    have hab : b.2.range.frm = a.2.range.toS := (List.chain'_cons.mp hch).1
    rcases List.mem_cons.mp h with h1 | h2
    · subst h1
      omega
    · have hb : b.2.range.toS ≤ kv.2.range.frm :=
        ih b (List.chain'_cons.mp hch).2
          (fun kv2 hm => hfr kv2 (List.mem_cons_of_mem a hm)) kv h2
      have hbf : b.2.range.frm ≤ b.2.range.toS :=
        hfr b (List.mem_cons_of_mem a (List.mem_cons_self b rest))
      omega

theorem chain_pairwise_toS (l : PartsMap)
    (hch : List.Chain' (fun x y => y.2.range.frm = x.2.range.toS) l)
    (hfr : ∀ kv ∈ l, kv.2.range.frm ≤ kv.2.range.toS) :
    List.Pairwise (fun a b : Nat × DomainPart =>
      a.2.range.toS ≤ b.2.range.frm) l := by
  induction l with
  | nil => exact List.Pairwise.nil
  | cons a rest ih =>
    exact List.pairwise_cons.mpr
      ⟨chain_head_le a rest hch hfr,
       ih (List.Chain'.tail hch) (fun kv hm => hfr kv (List.mem_cons_of_mem a hm))⟩

theorem loop_headFrm_ge (t : Nat) (l : PartsMap)
    (hch : List.Chain' (fun x y => y.2.range.frm = x.2.range.toS) l)
    (hfr : ∀ kv ∈ l, kv.2.range.frm ≤ kv.2.range.toS) :
    headFrm l ≤ headFrm (erasePartsLoop t l) := by
  induction l with
  | nil => simp [erasePartsLoop]
  | cons a rest ih =>
    by_cases hc : rest.isEmpty = false ∧ a.2.range.toS < t
    · rw [erasePartsLoop, if_pos hc]
      have hr : rest ≠ [] := by
        intro hr
        rw [hr] at hc
        simp at hc
      obtain ⟨b, rest2, hb⟩ := List.exists_cons_of_ne_nil hr
      subst hb
      have h2 := ih (List.Chain'.tail hch) (fun kv hm => hfr kv (List.mem_cons_of_mem a hm))
      have hab : b.2.range.frm = a.2.range.toS := (List.chain'_cons.mp hch).1
      have ha : a.2.range.frm ≤ a.2.range.toS := hfr a (by simp)
      have e1 : headFrm (b :: rest2) = b.2.range.frm := rfl
      have e2 : headFrm (a :: b :: rest2) = a.2.range.frm := rfl
      rw [e1] at h2
      rw [e2]
      omega
    · rw [erasePartsLoop, if_neg hc]

theorem loop_headFrm_le (t : Nat) (l : PartsMap)
    (hch : List.Chain' (fun x y => y.2.range.frm = x.2.range.toS) l)
    (hfr : ∀ kv ∈ l, kv.2.range.frm ≤ kv.2.range.toS) :
    headFrm (erasePartsLoop t l) ≤ max t (headFrm l) := by
  induction l with
  | nil => simp [erasePartsLoop, headFrm]
  | cons a rest ih =>
    by_cases hc : rest.isEmpty = false ∧ a.2.range.toS < t
    · rw [erasePartsLoop, if_pos hc]
      have hr : rest ≠ [] := by
        intro hr
        rw [hr] at hc
        simp at hc
      obtain ⟨b, rest2, hb⟩ := List.exists_cons_of_ne_nil hr
      subst hb
      have h2 := ih (List.Chain'.tail hch) (fun kv hm => hfr kv (List.mem_cons_of_mem a hm))
      have hab : b.2.range.frm = a.2.range.toS := (List.chain'_cons.mp hch).1
      have e1 : headFrm (b :: rest2) = b.2.range.frm := rfl
      have e2 : headFrm (a :: b :: rest2) = a.2.range.frm := rfl
      rw [e1] at h2
      rw [e2]
      have hat : a.2.range.toS < t := hc.2
      omega
    · rw [erasePartsLoop, if_neg hc]
      have e2 : headFrm (a :: rest) = a.2.range.frm := rfl
      rw [e2]
      omega

theorem loop_removed_key (t : Nat) (l : PartsMap)
    (hsorted : List.Pairwise (fun a b : Nat × DomainPart => a.1 < b.1) l)
    (htos : List.Pairwise
      (fun a b : Nat × DomainPart => a.2.range.toS ≤ b.2.range.frm) l)
    (hfr : ∀ kv ∈ l, kv.2.range.frm ≤ kv.2.range.toS)
    (hlastopen : ∀ h : l ≠ [], (l.getLast h).2.closed = false) :
    ∀ kv ∈ l, kv.2.closed = true → kv.2.range.toS < t →
      ∀ kv2 ∈ erasePartsLoop t l, kv2.1 ≠ kv.1 := by
  induction l with
  | nil => intro kv h; simp at h
  | cons a rest ih =>
    intro kv hkv hcl hts kv2 hkv2
    by_cases hc : rest.isEmpty = false ∧ a.2.range.toS < t
    · rw [erasePartsLoop, if_pos hc] at hkv2
      have hr : rest ≠ [] := by
        intro hr2
        rw [hr2] at hc
        simp at hc
      rcases List.mem_cons.mp hkv with h1 | h2
      · subst h1
        have hmem : kv2 ∈ rest := loop_subset t rest kv2 hkv2
        have := (List.pairwise_cons.mp hsorted).1 kv2 hmem
        omega
      · exact ih (List.pairwise_cons.mp hsorted).2 (List.pairwise_cons.mp htos).2
          (fun kv3 hm => hfr kv3 (List.mem_cons_of_mem a hm))
          (fun h3 => by
            have h4 := hlastopen (List.cons_ne_nil a rest)
            rwa [List.getLast_cons h3] at h4)
          kv h2 hcl hts kv2 hkv2
    · exfalso
      rcases List.mem_cons.mp hkv with h1 | h2
      · subst h1
        by_cases hr : rest.isEmpty = false
        · have := (not_and.mp hc) hr
          omega
        · have hrnil : rest = [] := by simpa using hr
          subst hrnil
          have h5 := hlastopen (List.cons_ne_nil kv [])
          simp at h5
          rw [h5] at hcl
          exact Bool.false_ne_true hcl
      · by_cases hr : rest.isEmpty = false
        · have hat := (not_and.mp hc) hr
          have h3 := (List.pairwise_cons.mp htos).1 kv h2
          have h4 := hfr kv (List.mem_cons_of_mem a h2)
          omega
        · have hrnil : rest = [] := by simpa using hr
          rw [hrnil] at h2
          simp at h2

theorem erase_parts_keys (d : Domain) (t : Nat) :
    (d.erase t).parts.map Prod.fst = (erasePartsLoop t d.parts).map Prod.fst := by
  unfold Domain.erase
  cases h : erasePartsLoop t d.parts with
  | nil => rfl
  | cons kv rest2 =>
    by_cases ht : kv.2.range.toS ≥ t
    · simp [ht]
    · simp [ht]

/-- C4 counterexample: the claim says that after erase(to) the minimum
retained range start is at most to.  On a domain whose single segment
covers (5, 10], erase(3) keeps the segment untouched, so the minimum
retained range start stays 5, strictly above to = 3. -/
theorem c4_erase_counterexample :
    exD4.beginSerial = 5 ∧ (exD4.erase 3).beginSerial = 5 ∧
      ¬ ((exD4.erase 3).beginSerial ≤ 3) := by decide

/-- C4 (amended): erase(to) removes every closed segment whose range upper
bound is below to, never removes the last segment (the segment set stays
non-empty and the last key survives), truncates the first remaining
segment down to to when its range still reaches to, and the minimum
retained range start never decreases and ends at most max(to, its
pre-erase value) — the bound of to itself claimed by the spec holds only
when to is at least the pre-erase minimum retained range start. -/
theorem c4_erase_amended (d : Domain) (t : Nat) (hne : d.parts ≠ [])
    (hsorted : List.Pairwise (fun a b : Nat × DomainPart => a.1 < b.1) d.parts)
    (hch : List.Chain' (fun x y => y.2.range.frm = x.2.range.toS) d.parts)
    (hfr : ∀ kv ∈ d.parts, kv.2.range.frm ≤ kv.2.range.toS)
    (hlastopen : (d.parts.getLast hne).2.closed = false) :
    (d.erase t).parts ≠ []
    ∧ (∀ kv ∈ d.parts, kv.2.closed = true → kv.2.range.toS < t →
        ∀ kv2 ∈ (d.erase t).parts, kv2.1 ≠ kv.1)
    ∧ (d.parts.getLast hne).1 ∈ (d.erase t).parts.map Prod.fst
    ∧ (∀ kv rest2, erasePartsLoop t d.parts = kv :: rest2 → t ≤ kv.2.range.toS →
        (d.erase t).parts = (kv.1, kv.2.eraseTo t) :: rest2)
    ∧ d.beginSerial ≤ (d.erase t).beginSerial
    ∧ (d.erase t).beginSerial ≤ max t d.beginSerial := by
  have htos := chain_pairwise_toS d.parts hch hfr
  have hloopne : erasePartsLoop t d.parts ≠ [] := loop_ne_nil t d.parts hne
  obtain ⟨h0, rest0, hln⟩ := List.exists_cons_of_ne_nil hloopne
  have herased : (d.erase t).parts =
      if h0.2.range.toS ≥ t then (h0.1, h0.2.eraseTo t) :: rest0 else h0 :: rest0 := by
    unfold Domain.erase
    rw [hln]
  refine ⟨?_, ?_, ?_, ?_, ?_, ?_⟩
  · rw [herased]
    by_cases ht : h0.2.range.toS ≥ t
    · simp [ht]
    · simp [ht]
  · intro kv hkv hcl hts kv2 hkv2
    have hkey : kv2.1 ∈ (erasePartsLoop t d.parts).map Prod.fst := by
      rw [← erase_parts_keys]
      exact List.mem_map.mpr ⟨kv2, hkv2, rfl⟩
    rcases List.mem_map.mp hkey with ⟨kv3, hkv3, he3⟩
    rw [← he3]
    exact loop_removed_key t d.parts hsorted htos hfr
      (fun _ => hlastopen) kv hkv hcl hts kv3 hkv3
  · have h1 : (erasePartsLoop t d.parts).getLast? = d.parts.getLast? :=
      loop_getLast? t d.parts hne
    have h2 : d.parts.getLast? = some (d.parts.getLast hne) :=
      List.getLast?_eq_getLast d.parts hne
    have h3 : (erasePartsLoop t d.parts).getLast hloopne = d.parts.getLast hne := by
      have h4 := List.getLast?_eq_getLast (erasePartsLoop t d.parts) hloopne
      rw [h1, h2] at h4
      exact Option.some.inj h4.symm
    have h5 : d.parts.getLast hne ∈ erasePartsLoop t d.parts := by
      rw [← h3]
      exact List.getLast_mem hloopne
    rw [hln] at h5
    rcases List.mem_cons.mp h5 with h6 | h7
    · rw [herased]
      by_cases ht : h0.2.range.toS ≥ t
      · simp only [ht, if_true, List.map_cons]
        rw [← h6]
        simp
      · simp only [ht, if_false, List.map_cons]
        rw [← h6]
        simp
    · rw [herased]
      by_cases ht : h0.2.range.toS ≥ t
      · simp only [ht, if_true, List.map_cons]
        right
        exact List.mem_map.mpr ⟨_, h7, rfl⟩
      · simp only [ht, if_false, List.map_cons]
        right
        exact List.mem_map.mpr ⟨_, h7, rfl⟩
  · intro kv rest2 hl ht
    unfold Domain.erase
    rw [hl]
    simp [ht]
  · have hA := loop_headFrm_ge t d.parts hch hfr
    rw [hln] at hA
    rw [beginSerial_eq_headFrm, beginSerial_eq_headFrm, herased]
    by_cases ht : h0.2.range.toS ≥ t
    · simp only [ht, if_true, headFrm, DomainPart.eraseTo] at hA ⊢
      omega
    · simp only [ht, if_false]
      exact hA
  · have hB := loop_headFrm_le t d.parts hch hfr
    rw [hln] at hB
    rw [beginSerial_eq_headFrm, beginSerial_eq_headFrm, herased]
    by_cases ht : h0.2.range.toS ≥ t
    · simp only [ht, if_true, headFrm, DomainPart.eraseTo] at hB ⊢
      omega
    · simp only [ht, if_false]
      exact hB


/-! Lookup helper lemmas for C6. -/

theorem find?_eq_head?_of_all {α : Type} (p : α → Bool) (l : List α)
    (h : ∀ x ∈ l, p x = true) : l.find? p = l.head? := by
  cases l with
  | nil => rfl
  | cons a rest =>
    rw [List.find?_cons, h a (List.mem_cons_self a rest)]
    rfl

theorem mem_takeWhile_pred {α : Type} (p : α → Bool) (l : List α) :
    ∀ x ∈ l.takeWhile p, p x = true := by
  induction l with
  | nil => intro x h; simp at h
  | cons a rest ih =>
    intro x h
    rw [List.takeWhile_cons] at h
    by_cases hp : p a
    · rw [if_pos hp] at h
      rcases List.mem_cons.mp h with h1 | h2
      · rw [h1]; exact hp
      · exact ih x h2
    · rw [if_neg hp] at h
      simp at h

theorem dropWhile_keys_gt (s : Nat) (l : PartsMap)
    (hsorted : List.Pairwise (fun a b : Nat × DomainPart => a.1 < b.1) l) :
    ∀ kv ∈ l.dropWhile (fun kv => kv.1 ≤ s), s < kv.1 := by
  induction l with
  | nil => intro kv h; simp at h
  | cons a rest ih =>
    intro kv h
    rw [List.dropWhile_cons] at h
    by_cases hp : (fun kv : Nat × DomainPart => decide (kv.1 ≤ s)) a = true
    · rw [if_pos hp] at h
      exact ih (List.pairwise_cons.mp hsorted).2 kv h
    · rw [if_neg hp] at h
      have ha : s < a.1 := by
        simp at hp
        omega
      rcases List.mem_cons.mp h with h1 | h2
      · rw [h1]; exact ha
      · have := (List.pairwise_cons.mp hsorted).1 kv h2
        omega

/-- C6 counterexample: on a domain holding the single segment with range
(0, 5] under key 0, findPart 5 returns none even though that segment
range contains serial 5 (0 < 5 and 5 ≤ 5 under the exclusive-lower,
inclusive-upper convention), refuting the claim that findPart returns the
segment whose range contains the serial whenever one exists. -/
theorem c6_findPart_counterexample :
    exD6.parts = [(0, exPart6)] ∧ exPart6.range.frm < 5 ∧ 5 ≤ exPart6.range.toS ∧
      exD6.findPart 5 = none := by decide

/-- C6 (amended): over a segment map with strictly increasing keys, each
key at most its segment range upper bound, and each range upper bound at
most the next key, findPart(s) returns the unique segment whose key k
satisfies k ≤ s < range upper bound when such a segment exists (the
segment holding record s+1 under the exclusive-lower-bound convention);
otherwise it returns the first segment whose key exceeds s when one
exists; otherwise none. -/
theorem c6_findPart_amended (d : Domain) (s : Nat)
    (hsorted : List.Pairwise (fun a b : Nat × DomainPart => a.1 < b.1) d.parts)
    (htos : List.Pairwise (fun a b : Nat × DomainPart => a.2.range.toS ≤ b.1) d.parts) :
    (∀ kv, d.parts.find? (fun kv => kv.1 ≤ s ∧ s < kv.2.range.toS) = some kv →
        d.findPart s = some kv.2)
    ∧ (d.parts.find? (fun kv => kv.1 ≤ s ∧ s < kv.2.range.toS) = none →
        d.findPart s = (d.parts.find? (fun kv => s < kv.1)).map (fun kv => kv.2)) := by
  have hsplit : d.parts.takeWhile (fun kv => kv.1 ≤ s) ++
      d.parts.dropWhile (fun kv => kv.1 ≤ s) = d.parts :=
    List.takeWhile_append_dropWhile _ _
  have hBgt : ∀ kv ∈ d.parts.dropWhile (fun kv => kv.1 ≤ s), s < kv.1 :=
    dropWhile_keys_gt s d.parts hsorted
  have htosAB : ∀ kv ∈ d.parts.takeWhile (fun kv => kv.1 ≤ s),
      ∀ kv2 ∈ d.parts.dropWhile (fun kv => kv.1 ≤ s), kv.2.range.toS ≤ kv2.1 := by
    have h := htos
    rw [← hsplit] at h
    exact fun kv h1 kv2 h2 => (List.pairwise_append.mp h).2.2 kv h1 kv2 h2
  by_cases hA : d.parts.takeWhile (fun kv => kv.1 ≤ s) = []
  · have hB : d.parts.dropWhile (fun kv => kv.1 ≤ s) = d.parts := by
      have hsplit2 := hsplit
      rw [hA] at hsplit2
      simpa using hsplit2
    have hfp : d.findPart s =
        (d.parts.dropWhile (fun kv => kv.1 ≤ s)).head?.map (fun kv => kv.2) := by
      unfold Domain.findPart
      rw [hA]
      simp
    have hnone : d.parts.find? (fun kv => kv.1 ≤ s ∧ s < kv.2.range.toS) = none := by
      rw [List.find?_eq_none]
      intro kv hm
      have := hBgt kv (by rw [hB]; exact hm)
      simp
      omega
    refine ⟨?_, ?_⟩
    · intro kv hfind
      rw [hnone] at hfind
      exact absurd hfind (by simp)
    · intro _
      rw [hfp]
      have hhd : d.parts.find? (fun kv => s < kv.1) = d.parts.head? := by
        apply find?_eq_head?_of_all
        intro kv hm
        have := hBgt kv (by rw [hB]; exact hm)
        simpa using this
      rw [hhd, hB]
  · obtain ⟨aL, hgl⟩ : ∃ aL, (d.parts.takeWhile (fun kv => kv.1 ≤ s)).getLast? = some aL :=
      ⟨(d.parts.takeWhile (fun kv => kv.1 ≤ s)).getLast hA, List.getLast?_eq_getLast _ hA⟩
    have hdecomp : (d.parts.takeWhile (fun kv => kv.1 ≤ s)).dropLast ++ [aL] =
        d.parts.takeWhile (fun kv => kv.1 ≤ s) := by
      have h1 := List.dropLast_append_getLast hA
      have h2 : (d.parts.takeWhile (fun kv => kv.1 ≤ s)).getLast hA = aL := by
        have := List.getLast?_eq_getLast (d.parts.takeWhile (fun kv => kv.1 ≤ s)) hA
        rw [hgl] at this
        exact (Option.some.inj this).symm
      rw [← h2]
      exact h1
    have haLmem : aL ∈ d.parts.takeWhile (fun kv => kv.1 ≤ s) := by
      rw [← hdecomp]
      exact List.mem_append_right _ (List.mem_cons_self aL [])
    have haLle : aL.1 ≤ s := by
      have := mem_takeWhile_pred _ _ aL haLmem
      simpa using this
    have hA0toS : ∀ kv ∈ (d.parts.takeWhile (fun kv => kv.1 ≤ s)).dropLast,
        kv.2.range.toS ≤ aL.1 := by
      have h := htos
      rw [← hsplit, ← hdecomp] at h
      have h2 := (List.pairwise_append.mp h).1
      have h3 := (List.pairwise_append.mp h2).2.2
      intro kv hm
      exact h3 kv hm aL (List.mem_cons_self aL [])
    have hfpbase : d.findPart s =
        (if aL.2.range.toS > s then some aL.2
         else (d.parts.dropWhile (fun kv => kv.1 ≤ s)).head?.map (fun kv => kv.2)) := by
      have hone : d.parts.isEmpty = false := by
        cases hp : d.parts with
        | nil => exact absurd (by rw [hp]; rfl) hA
        | cons x xs => rfl
      have htwo : (d.parts.takeWhile (fun kv => kv.1 ≤ s)).isEmpty = false := by
        cases hp : d.parts.takeWhile (fun kv => kv.1 ≤ s) with
        | nil => exact absurd hp hA
        | cons x xs => rfl
      simp only [Domain.findPart]
      rw [if_pos (⟨hone, htwo⟩ : d.parts.isEmpty = false ∧
        (d.parts.takeWhile (fun kv => kv.1 ≤ s)).isEmpty = false)]
      rw [List.getLastD_eq_getLast?, hgl]
      rfl
    by_cases hP : s < aL.2.range.toS
    · have hfind : d.parts.find? (fun kv => kv.1 ≤ s ∧ s < kv.2.range.toS) = some aL := by
        rw [← hsplit, ← hdecomp]
        rw [List.find?_append]
        have hnA0 : ((d.parts.takeWhile (fun kv => kv.1 ≤ s)).dropLast ++ [aL]).find?
            (fun kv => kv.1 ≤ s ∧ s < kv.2.range.toS) = some aL := by
          rw [List.find?_append]
          have h1 : (d.parts.takeWhile (fun kv => kv.1 ≤ s)).dropLast.find?
              (fun kv => kv.1 ≤ s ∧ s < kv.2.range.toS) = none := by
            rw [List.find?_eq_none]
            intro kv hm
            have := hA0toS kv hm
            simp
            intro
            omega
          rw [h1]
          simp [haLle, hP]
        rw [hnA0]
        rfl
      refine ⟨?_, ?_⟩
      · intro kv hfind2
        rw [hfind] at hfind2
        have : kv = aL := (Option.some.inj hfind2).symm
        rw [this, hfpbase, if_pos hP]
      · intro hnone
        rw [hfind] at hnone
        exact absurd hnone (by simp)
    · have hfind : d.parts.find? (fun kv => kv.1 ≤ s ∧ s < kv.2.range.toS) = none := by
        rw [List.find?_eq_none]
        intro kv hm
        rw [← hsplit] at hm
        rcases List.mem_append.mp hm with h1 | h2
        · rw [← hdecomp] at h1
          rcases List.mem_append.mp h1 with h3 | h4
          · have := hA0toS kv h3
            simp
            intro
            omega
          · have : kv = aL := by simpa using h4
            rw [this]
            simp
            intro
            omega
        · have := hBgt kv h2
          simp
          omega
      refine ⟨?_, ?_⟩
      · intro kv hfind2
        rw [hfind] at hfind2
        exact absurd hfind2 (by simp)
      · intro _
        rw [hfpbase, if_neg hP]
        have h1 : (d.parts.takeWhile (fun kv => kv.1 ≤ s)).find?
            (fun kv => s < kv.1) = none := by
          rw [List.find?_eq_none]
          intro kv hm
          have := mem_takeWhile_pred _ _ kv hm
          simp at this ⊢
          omega
        have h2 : (d.parts.dropWhile (fun kv => kv.1 ≤ s)).find?
            (fun kv => s < kv.1) = (d.parts.dropWhile (fun kv => kv.1 ≤ s)).head? := by
          apply find?_eq_head?_of_all
          intro kv hm
          have := hBgt kv hm
          simpa using this
        have h3 : (d.parts.takeWhile (fun kv => kv.1 ≤ s) ++
            d.parts.dropWhile (fun kv => kv.1 ≤ s)).find? (fun kv => s < kv.1) =
            ((d.parts.takeWhile (fun kv => kv.1 ≤ s)).find? (fun kv => s < kv.1)).or
              ((d.parts.dropWhile (fun kv => kv.1 ≤ s)).find? (fun kv => s < kv.1)) := by
          exact List.find?_append ..
        rw [hsplit, h1, h2] at h3
        rw [h3]
        rfl

/-! Decimal-rendering helper lemmas for C8. -/

theorem digitChar10_isDigit (d : Nat) (h : d < 10) :
    (digitChar10 d).isDigit = true ∧ (digitChar10 d).toNat = 48 + d := by
  interval_cases d <;> exact ⟨by decide, by decide⟩

theorem natCharsAux_eq_digits (n : Nat) : ∀ fuel, n ≤ fuel →
    natCharsAux fuel n = ((Nat.digits 10 n).map digitChar10).reverse := by
  induction n using Nat.strong_induction_on with
  | _ n ih =>
    intro fuel hf
    cases fuel with
    | zero =>
      have : n = 0 := by omega
      subst this
      simp [natCharsAux]
    | succ f =>
      by_cases hn : n = 0
      · subst hn
        simp [natCharsAux]
      · have hpos : 0 < n := Nat.pos_of_ne_zero hn
        rw [natCharsAux, if_neg hn]
        have hlt : n / 10 < n := Nat.div_lt_self hpos (by norm_num)
        have hfl : n / 10 ≤ f := by omega
        rw [ih (n / 10) hlt f hfl]
        rw [Nat.digits_def' (by norm_num : (1 : Nat) < 10) hpos]
        simp

theorem natChars_eq (n : Nat) :
    natChars n = ((Nat.digits 10 n).map digitChar10).reverse :=
  natCharsAux_eq_digits n n (Nat.le_refl n)

theorem natChars_all_digits (n : Nat) : ∀ c ∈ natChars n, c.isDigit = true := by
  rw [natChars_eq]
  intro c hc
  rw [List.mem_reverse] at hc
  rcases List.mem_map.mp hc with ⟨d, hd, rfl⟩
  exact (digitChar10_isDigit d (Nat.digits_lt_base (by norm_num) hd)).1

theorem natPad16_all_digits (n : Nat) : ∀ c ∈ natPad16 n, c.isDigit = true := by
  intro c hc
  rcases List.mem_append.mp hc with h1 | h2
  · have : c = '0' := by
      have := List.eq_of_mem_replicate h1
      exact this
    rw [this]
    decide
  · exact natChars_all_digits n c h2

theorem natPad16_len (n : Nat) : 16 ≤ (natPad16 n).length := by
  simp only [natPad16, List.length_append, List.length_replicate]
  omega

theorem natPad16_ne_nil (n : Nat) : natPad16 n ≠ [] := by
  intro h
  have := natPad16_len n
  rw [h] at this
  simp at this

theorem digitsVal_append_digits (ds : List Nat) : ∀ acc, (∀ d ∈ ds, d < 10) →
    digitsVal (ds.map digitChar10) acc = acc * 10 ^ ds.length + Nat.ofDigits 10 ds.reverse := by
  induction ds with
  | nil =>
    intro acc h
    simp [digitsVal, Nat.ofDigits]
  | cons d ds ih =>
    intro acc h
    have hd := h d (List.mem_cons_self d ds)
    have hfacts := digitChar10_isDigit d hd
    rw [List.map_cons, digitsVal, if_pos hfacts.1, hfacts.2]
    rw [ih (acc * 10 + (48 + d - 48)) (fun x hx => h x (List.mem_cons_of_mem d hx))]
    rw [List.reverse_cons, Nat.ofDigits_append]
    have h48 : 48 + d - 48 = d := by omega
    rw [h48]
    have hsing : Nat.ofDigits 10 [d] = d := by simp [Nat.ofDigits]
    rw [hsing]
    simp only [List.length_cons, List.length_reverse]
    ring

theorem digitsVal_zeros (rest : List Char) : ∀ k,
    digitsVal (List.replicate k '0' ++ rest) 0 = digitsVal rest 0 := by
  intro k
  induction k with
  | zero => rfl
  | succ k ih =>
    rw [List.replicate_succ, List.cons_append, digitsVal, if_pos (by decide)]
    simpa using ih

theorem digitsVal_natPad16 (n : Nat) : digitsVal (natPad16 n) 0 = n := by
  rw [natPad16, digitsVal_zeros]
  rw [natChars_eq, ← List.map_reverse]
  rw [digitsVal_append_digits (Nat.digits 10 n).reverse 0
    (fun d hd => Nat.digits_lt_base (by norm_num) (List.mem_reverse.mp hd))]
  simp [Nat.ofDigits_digits]

theorem strtoull10_lt (cs : List Char) : strtoull10 cs < 2 ^ 64 := by
  rw [strtoull10]
  split
  · exact Nat.mod_lt _ (by norm_num)
  · simp only [ullClamp]
    omega
  · simp only [ullClamp]
    omega

theorem isSpaceC_of_digit (c : Char) (h : c.isDigit = true) : isSpaceC c = false := by
  simp only [isSpaceC, decide_eq_false_iff_not]
  rintro (rfl | rfl | rfl | rfl | rfl | rfl) <;> simp at h

theorem strtoull10_of_digits (cs : List Char) (hne : cs ≠ [])
    (hd : ∀ c ∈ cs, c.isDigit = true) :
    strtoull10 cs = ullClamp (digitsVal cs 0) := by
  obtain ⟨c, rest, rfl⟩ := List.exists_cons_of_ne_nil hne
  have hc := hd c (List.mem_cons_self c rest)
  have hsp : isSpaceC c = false := isSpaceC_of_digit c hc
  have hdw : (c :: rest).dropWhile isSpaceC = c :: rest := by
    rw [List.dropWhile_cons, hsp]
    simp
  rw [strtoull10]
  simp only [hdw]
  split
  · next heq =>
    injection heq with hch hrest
    rw [hch] at hc
    exact absurd hc (by decide)
  · next heq =>
    injection heq with hch hrest
    rw [hch] at hc
    exact absurd hc (by decide)
  · rfl

theorem strtoull10_natPad16 (n : Nat) (h : n < 2 ^ 64) :
    strtoull10 (natPad16 n) = n := by
  rw [strtoull10_of_digits (natPad16 n) (natPad16_ne_nil n) (natPad16_all_digits n)]
  rw [digitsVal_natPad16]
  simp only [ullClamp]
  omega

/-! Sorting helper lemmas for C8. -/

theorem mem_insertSorted (n : Nat) (l : List Nat) :
    ∀ x ∈ insertSorted n l, x = n ∨ x ∈ l := by
  induction l with
  | nil => intro x h; simp [insertSorted] at h; exact Or.inl h
  | cons m rest ih =>
    intro x h
    rw [insertSorted] at h
    by_cases hc : n ≤ m
    · rw [if_pos hc] at h
      rcases List.mem_cons.mp h with h1 | h2
      · exact Or.inl h1
      · exact Or.inr h2
    · rw [if_neg hc] at h
      rcases List.mem_cons.mp h with h1 | h2
      · exact Or.inr (by rw [h1]; exact List.mem_cons_self m rest)
      · rcases ih x h2 with h3 | h4
        · exact Or.inl h3
        · exact Or.inr (List.mem_cons_of_mem m h4)

theorem sorted_insertSorted (n : Nat) (l : List Nat)
    (h : l.Pairwise (fun a b => a ≤ b)) :
    (insertSorted n l).Pairwise (fun a b => a ≤ b) := by
  induction l with
  | nil => simp [insertSorted]
  | cons m rest ih =>
    rw [insertSorted]
    by_cases hc : n ≤ m
    · rw [if_pos hc]
      refine List.pairwise_cons.mpr ⟨?_, h⟩
      intro x hx
      rcases List.mem_cons.mp hx with h1 | h2
      · omega
      · have := (List.pairwise_cons.mp h).1 x h2
        omega
    · rw [if_neg hc]
      refine List.pairwise_cons.mpr ⟨?_, ih (List.pairwise_cons.mp h).2⟩
      intro x hx
      rcases mem_insertSorted n rest x hx with h1 | h2
      · omega
      · exact (List.pairwise_cons.mp h).1 x h2

theorem sorted_sortSerials (l : List Nat) :
    (sortSerials l).Pairwise (fun a b => a ≤ b) := by
  induction l with
  | nil => simp [sortSerials]
  | cons n rest ih => exact sorted_insertSorted n (sortSerials rest) ih

/-- C8 counterexample: scanDir accepts the entry name d- followed by the
seventeen-digit decimal rendering of 10^16, although that name is not of
the claimed fixed sixteen-digit zero-padded form (its digit part has
seventeen characters). -/
theorem c8_scanDir_counterexample :
    scanDirAccept ['d'] exName17 = some (10 ^ 16) ∧
      (exName17.drop 2).length = 17 := by decide

/-- C8 (amended): the construction-time scan accepts an entry name exactly
when it equals the domain name, a dash, and the decimal rendering of a
serial below 2^64 zero-padded to a minimum width of sixteen digits (the
width is exactly sixteen only for serials below 10^16); every other name
is ignored, and the accepted serials are returned sorted ascending. -/
theorem c8_scanDir_amended :
    (∀ dn ename n, scanDirAccept dn ename = some n ↔
        (n < 2 ^ 64 ∧ ename = dn ++ '-' :: natPad16 n))
    ∧ (∀ dn names, (scanDir dn names).Pairwise (fun a b => a ≤ b)) := by
  constructor
  · intro dn ename n
    constructor
    · intro h
      rw [scanDirAccept] at h
      by_cases h1 : ename = ['.'] ∨ ename = ['.', '.']
      · rw [if_pos h1] at h
        exact absurd h (by simp)
      · rw [if_neg h1] at h
        by_cases h2 : ename.take dn.length = dn
        swap
        · rw [if_neg h2] at h
          exact absurd h (by simp)
        · rw [if_pos h2] at h
          rcases hdr : ename.drop dn.length with _ | ⟨c, p⟩
          · rw [hdr] at h
            exact absurd h (by simp)
          · rw [hdr] at h
            split at h
            · rename_i heq
              injection heq with hch hp
              subst hp
              by_cases h3 : ename = dn ++ '-' :: natPad16 (strtoull10 p)
              · rw [if_pos h3] at h
                have hn : n = strtoull10 p := (Option.some.inj h).symm
                subst hn
                exact ⟨strtoull10_lt p, h3⟩
              · rw [if_neg h3] at h
                exact absurd h (by simp)
            · exact absurd h (by simp)
    · rintro ⟨hn, rfl⟩
      rw [scanDirAccept]
      have hlen : (dn ++ '-' :: natPad16 n).length = dn.length + 1 + (natPad16 n).length := by
        simp
        omega
      have h16 := natPad16_len n
      have h1 : ¬ (dn ++ '-' :: natPad16 n = ['.'] ∨ dn ++ '-' :: natPad16 n = ['.', '.']) := by
        rintro (he | he) <;> (rw [he] at hlen; simp at hlen; omega)
      rw [if_neg h1]
      have h2 : (dn ++ '-' :: natPad16 n).take dn.length = dn := List.take_left dn _
      rw [if_pos h2]
      have h3 : (dn ++ '-' :: natPad16 n).drop dn.length = '-' :: natPad16 n :=
        List.drop_left dn _
      rw [h3]
      simp only
      rw [strtoull10_natPad16 n hn]
      simp
  · intro dn names
    exact sorted_sortSerials (names.filterMap (scanDirAccept dn))

/-! Chain and pipeline helper lemmas for C2. -/

theorem lastToD_concat (e : Nat) (l : List Packet) (p : Packet) :
    lastToD e (l ++ [p]) = p.range.toS := by
  rw [lastToD, List.getLast?_concat]

theorem lastToD_cons (e : Nat) (p : Packet) (l : List Packet) :
    lastToD e (p :: l) = lastToD p.range.toS l := by
  cases l with
  | nil => rfl
  | cons q l2 => rfl

theorem chainFrom_snoc (e : Nat) (l : List Packet) (p : Packet)
    (hch : chainFrom e l) (hlt : lastToD e l < p.range.frm) :
    chainFrom e (l ++ [p]) := by
  induction l generalizing e with
  | nil => exact ⟨hlt, trivial⟩
  | cons q l2 ih =>
    rw [lastToD_cons] at hlt
    exact ⟨hch.1, ih q.range.toS hch.2 hlt⟩

theorem chainFrom_snoc_congr (e : Nat) (l : List Packet) (q q2 : Packet)
    (hf : q2.range.frm = q.range.frm) (hch : chainFrom e (l ++ [q])) :
    chainFrom e (l ++ [q2]) := by
  induction l generalizing e with
  | nil => exact ⟨by rw [hf]; exact hch.1, trivial⟩
  | cons r l2 ih => exact ⟨hch.1, ih r.range.toS hch.2⟩

theorem merge_entries_ne (p q : Packet) (hq : q.entries ≠ []) :
    (p.merge q).entries ≠ [] := by
  rw [Packet.merge]
  by_cases hp : p.entries.isEmpty
  · rw [if_pos hp]; exact hq
  · rw [if_neg hp]
    simp
    intro h
    exact absurd (by rw [h]; rfl) hp

theorem commit_ok_eq (d : Domain) (p : Packet) (cb now : Nat)
    (h : d.lastSerial < p.range.frm) :
    d.commit p cb now =
      ({d with lastSerial := p.range.toS,
               currentChunk :=
                 if (d.currentChunk.add p cb now).sizeBytes > d.config.chunkSizeLimit
                 then Chunk.fresh else d.currentChunk.add p cb now,
               queue :=
                 if (d.currentChunk.add p cb now).sizeBytes > d.config.chunkSizeLimit
                 then d.queue ++ [d.currentChunk.add p cb now] else d.queue},
       Except.ok (decide
         ((d.currentChunk.add p cb now).sizeBytes > d.config.chunkSizeLimit))) := by
  have hnot : ¬ (d.lastSerial ≥ p.range.frm) := Nat.not_le.mpr h
  by_cases hs : (d.currentChunk.add p cb now).sizeBytes > d.config.chunkSizeLimit
  · have hne : (d.currentChunk.add p cb now).data.entries.isEmpty = false :=
      sizeBytes_pos_entries (Nat.lt_of_le_of_lt (Nat.zero_le _) hs)
    have hs2 : d.config.chunkSizeLimit < (d.currentChunk.add p cb now).data.sizeBytes := hs
    simp [Domain.commit, hnot, Domain.commitIfFull, Domain.grabCurrentChunk,
          Domain.commitChunk, Chunk.sizeBytes, hs2, hne]
  · have hs2 : ¬ (d.config.chunkSizeLimit < (d.currentChunk.add p cb now).data.sizeBytes) := hs
    simp [Domain.commit, hnot, Domain.commitIfFull, Chunk.sizeBytes, hs2]

theorem pipeline_after_commit (d : Domain) (p : Packet) (cb now : Nat)
    (hp : p.entries ≠ []) :
    Domain.pipeline
      {d with lastSerial := p.range.toS,
              currentChunk :=
                if (d.currentChunk.add p cb now).sizeBytes > d.config.chunkSizeLimit
                then Chunk.fresh else d.currentChunk.add p cb now,
              queue :=
                if (d.currentChunk.add p cb now).sizeBytes > d.config.chunkSizeLimit
                then d.queue ++ [d.currentChunk.add p cb now] else d.queue} =
      d.queue.map Chunk.data ++ [(d.currentChunk.add p cb now).data] := by
  have hne : (d.currentChunk.add p cb now).data.entries ≠ [] :=
    merge_entries_ne d.currentChunk.data p hp
  by_cases hs : (d.currentChunk.add p cb now).sizeBytes > d.config.chunkSizeLimit
  · simp [Domain.pipeline, hs, Chunk.fresh, Packet.emptyP]
  · simp only [Domain.pipeline, if_neg hs]
    have : (d.currentChunk.add p cb now).data.entries.isEmpty = false := by
      cases hh : (d.currentChunk.add p cb now).data.entries with
      | nil => exact absurd hh hne
      | cons x xs => rfl
    simp [this]

theorem commit_step (d : Domain) (t : Nat) (p : Packet) (cb now : Nat)
    (hinv : CommitInv d t) (hwf : p.wf) (hlt : t < p.range.frm) :
    ∃ d2 fl, d.commit p cb now = (d2, Except.ok fl) ∧ CommitInv d2 p.range.toS := by
  have hls : d.lastSerial < p.range.frm := by rw [hinv.lser]; exact hlt
  refine ⟨_, _, commit_ok_eq d p cb now hls, ?_⟩
  have hpipe := pipeline_after_commit d p cb now hwf.1
  have hparts : Domain.parts
      {d with lastSerial := p.range.toS,
              currentChunk :=
                if (d.currentChunk.add p cb now).sizeBytes > d.config.chunkSizeLimit
                then Chunk.fresh else d.currentChunk.add p cb now,
              queue :=
                if (d.currentChunk.add p cb now).sizeBytes > d.config.chunkSizeLimit
                then d.queue ++ [d.currentChunk.add p cb now] else d.queue} = d.parts := rfl
  have hend : Domain.endSerial
      {d with lastSerial := p.range.toS,
              currentChunk :=
                if (d.currentChunk.add p cb now).sizeBytes > d.config.chunkSizeLimit
                then Chunk.fresh else d.currentChunk.add p cb now,
              queue :=
                if (d.currentChunk.add p cb now).sizeBytes > d.config.chunkSizeLimit
                then d.queue ++ [d.currentChunk.add p cb now] else d.queue} = d.endSerial := rfl
  by_cases hcc : d.currentChunk.data.entries.isEmpty
  · -- the active chunk was empty: the merge adopts the packet wholesale
    have hmerge : (d.currentChunk.add p cb now).data = p := by
      simp [Chunk.add, Packet.merge, hcc]
    have hpold : d.pipeline = d.queue.map Chunk.data := by
      simp [Domain.pipeline, hcc]
    refine ⟨?_, ?_, ?_, ?_, ?_, ?_, ?_⟩
    · rw [hparts]; exact hinv.pne
    · rw [hparts]; exact hinv.sorted
    · rw [hparts]; exact hinv.keyle
    · rw [hend, hpipe, hmerge]
      apply chainFrom_snoc
      · have := hinv.chain; rwa [hpold] at this
      · have := hinv.lastto; rw [hpold] at this; rw [this]; exact hlt
    · rw [hpipe, hmerge]
      intro q hq
      rcases List.mem_append.mp hq with h1 | h2
      · apply hinv.wfall
        rw [hpold]
        exact h1
      · rw [List.mem_singleton.mp h2]
        exact hwf
    · rw [hend, hpipe, hmerge, lastToD_concat]
    · rfl
  · -- the active chunk already held data ending at t
    have hccne : d.currentChunk.data.entries ≠ [] := by
      intro h
      exact hcc (by rw [h]; rfl)
    have hpold : d.pipeline = d.queue.map Chunk.data ++ [d.currentChunk.data] := by
      have : d.currentChunk.data.entries.isEmpty = false := by
        cases hh : d.currentChunk.data.entries with
        | nil => exact absurd hh hccne
        | cons x xs => rfl
      simp [Domain.pipeline, this]
    have hcw : d.currentChunk.data.wf := by
      apply hinv.wfall
      rw [hpold]
      exact List.mem_append_right _ (List.mem_cons_self _ [])
    have hct : d.currentChunk.data.range.toS = t := by
      have := hinv.lastto
      rw [hpold, lastToD_concat] at this
      exact this
    have hmerge : (d.currentChunk.add p cb now).data =
        ⟨d.currentChunk.data.entries ++ p.entries,
         ⟨d.currentChunk.data.range.frm, p.range.toS⟩⟩ := by
      have : d.currentChunk.data.entries.isEmpty = false := by
        cases hh : d.currentChunk.data.entries with
        | nil => exact absurd hh hccne
        | cons x xs => rfl
      simp [Chunk.add, Packet.merge, this]
    have hfrmlt : d.currentChunk.data.range.frm < p.range.frm := by
      obtain ⟨e0, he0⟩ := List.exists_mem_of_ne_nil _ hcw.1
      have h1 := (hcw.2 e0 he0).1
      have h2 := (hcw.2 e0 he0).2
      omega
    have hptos : p.range.frm < p.range.toS := by
      obtain ⟨e0, he0⟩ := List.exists_mem_of_ne_nil _ hwf.1
      have h1 := (hwf.2 e0 he0).1
      have h2 := (hwf.2 e0 he0).2
      omega
    refine ⟨?_, ?_, ?_, ?_, ?_, ?_, ?_⟩
    · rw [hparts]; exact hinv.pne
    · rw [hparts]; exact hinv.sorted
    · rw [hparts]; exact hinv.keyle
    · rw [hend, hpipe, hmerge]
      refine chainFrom_snoc_congr d.endSerial (d.queue.map Chunk.data)
        d.currentChunk.data
        ⟨d.currentChunk.data.entries ++ p.entries,
         ⟨d.currentChunk.data.range.frm, p.range.toS⟩⟩ rfl ?_
      have := hinv.chain; rwa [hpold] at this
    · rw [hpipe, hmerge]
      intro q hq
      rcases List.mem_append.mp hq with h1 | h2
      · apply hinv.wfall
        rw [hpold]
        exact List.mem_append_left _ h1
      · rw [List.mem_singleton.mp h2]
        refine ⟨?_, ?_⟩
        · simp
          exact fun h _ => hccne h
        · intro e he
          simp at he
          rcases he with h3 | h4
          · have h5 := (hcw.2 e h3).1
            have h6 := (hcw.2 e h3).2
            dsimp only
            constructor
            · exact h5
            · omega
          · have h5 := (hwf.2 e h4).1
            have h6 := (hwf.2 e h4).2
            dsimp only
            constructor
            · omega
            · exact h6
    · rw [hend, hpipe, hmerge, lastToD_concat]
    · rfl

theorem runCommits_inv (now : Nat) : ∀ (ps : List Packet) (d : Domain) (t : Nat),
    CommitInv d t → (∀ p ∈ ps, p.wf) → chainFrom t ps →
    ∃ d2, d.runCommits now ps = Except.ok d2 ∧ CommitInv d2 (lastToD t ps) := by
  intro ps
  induction ps with
  | nil =>
    intro d t hinv _ _
    exact ⟨d, rfl, hinv⟩
  | cons p ps ih =>
    intro d t hinv hwf hch
    obtain ⟨d2, fl, heq, hinv2⟩ :=
      commit_step d t p 0 now hinv (hwf p (List.mem_cons_self p ps)) hch.1
    obtain ⟨d3, hrun, hinv3⟩ :=
      ih d2 p.range.toS hinv2 (fun q hq => hwf q (List.mem_cons_of_mem p hq)) hch.2
    refine ⟨d3, ?_, ?_⟩
    · rw [Domain.runCommits, heq]
      exact hrun
    · rw [lastToD_cons]
      exact hinv3

theorem keys_le_last2 (l : PartsMap)
    (hsorted : List.Pairwise (fun a b : Nat × DomainPart => a.1 < b.1) l)
    (kL : Nat × DomainPart) (h : l.getLast? = some kL) : ∀ kv ∈ l, kv.1 ≤ kL.1 := by
  induction l with
  | nil => simp at h
  | cons a rest ih =>
    intro kv hkv
    by_cases hr : rest = []
    · subst hr
      have h1 : kL = a := by
        simp at h
        exact h.symm
      have h2 : kv = a := by simpa using hkv
      rw [h1, h2]
    · have hsame : (a :: rest).getLast? = rest.getLast? := by
        obtain ⟨b, rest2, rfl⟩ := List.exists_cons_of_ne_nil hr
        rfl
      rw [hsame] at h
      have hmem : kL ∈ rest := by
        have h3 := List.getLast?_eq_getLast rest hr
        rw [h3] at h
        rw [Option.some.inj h.symm]
        exact List.getLast_mem hr
      rcases List.mem_cons.mp hkv with h1 | h2
      · have := (List.pairwise_cons.mp hsorted).1 kL hmem
        rw [h1]
        omega
      · exact ih (List.pairwise_cons.mp hsorted).2 h kv h2

theorem sorted_value_congr (l : PartsMap) (k : Nat) (v v2 : DomainPart)
    (hs : List.Pairwise (fun a b : Nat × DomainPart => a.1 < b.1) (l ++ [(k, v)])) :
    List.Pairwise (fun a b : Nat × DomainPart => a.1 < b.1) (l ++ [(k, v2)]) := by
  rw [List.pairwise_append] at hs ⊢
  refine ⟨hs.1, by simp, ?_⟩
  intro a ha b hb
  have := hs.2.2 a ha (k, v) (by simp)
  have hb2 : b = (k, v2) := by simpa using hb
  rw [hb2]
  exact this

theorem endSerial_parts_concat (d : Domain) (l : PartsMap) (kv : Nat × DomainPart)
    (h : d.parts = l ++ [kv]) : d.endSerial = kv.2.range.toS := by
  rw [Domain.endSerial, h, List.getLast?_concat]

theorem doCommit_step (d : Domain) (c : Chunk)
    (hpne : d.parts ≠ [])
    (hsorted : d.parts.Pairwise (fun a b => a.1 < b.1))
    (hkeyle : ∀ kv ∈ d.parts, kv.1 ≤ kv.2.range.toS)
    (hwf : c.data.wf) (hend : d.endSerial < c.data.range.frm) :
    (d.doCommit c).1.parts ≠ []
    ∧ (d.doCommit c).1.parts.Pairwise (fun a b => a.1 < b.1)
    ∧ (∀ kv ∈ (d.doCommit c).1.parts, kv.1 ≤ kv.2.range.toS)
    ∧ (d.doCommit c).1.endSerial = c.data.range.toS
    ∧ (d.doCommit c).1.queue = d.queue := by
  obtain ⟨kL, hkL⟩ : ∃ kL, d.parts.getLast? = some kL :=
    ⟨d.parts.getLast hpne, List.getLast?_eq_getLast d.parts hpne⟩
  have hdecomp : d.parts.dropLast ++ [kL] = d.parts := by
    have h1 := List.dropLast_append_getLast hpne
    have h2 := List.getLast?_eq_getLast d.parts hpne
    rw [hkL] at h2
    rw [Option.some.inj h2]
    exact h1
  have hkLD : d.parts.getLastD (0, DomainPart.fresh 0) = kL := by
    rw [List.getLastD_eq_getLast?, hkL]
    rfl
  have hendL : d.endSerial = kL.2.range.toS := by
    rw [Domain.endSerial, hkL]
  have hehead : c.data.entries.headD ⟨0, 0⟩ ∈ c.data.entries := by
    cases hh : c.data.entries with
    | nil => exact absurd hh hwf.1
    | cons x xs => simp [hh]
  have heb := hwf.2 _ hehead
  have hkeys_lt : ∀ kv ∈ d.parts, kv.1 < (c.data.entries.headD ⟨0, 0⟩).serial := by
    intro kv hkv
    have h1 := keys_le_last2 d.parts hsorted kL hkL kv hkv
    have h2 := hkeyle kL (by rw [← hdecomp]; simp)
    omega
  have hkLtos : kL.1 ≤ c.data.range.toS := by
    have h2 := hkeyle kL (by rw [← hdecomp]; simp)
    rw [← hendL] at h2
    omega
  have hsortcat : ∀ l2 : PartsMap, ∀ dp : DomainPart,
      l2.Pairwise (fun a b => a.1 < b.1) →
      (∀ kv ∈ l2, kv.1 < (c.data.entries.headD ⟨0, 0⟩).serial) →
      (l2 ++ [((c.data.entries.headD ⟨0, 0⟩).serial, dp)]).Pairwise
        (fun a b => a.1 < b.1) := by
    intro l2 dp h1 h2
    apply List.pairwise_append.mpr
    refine ⟨h1, by simp, ?_⟩
    intro a ha b hb
    have hb2 : b = ((c.data.entries.headD ⟨0, 0⟩).serial, dp) := by simpa using hb
    rw [hb2]
    exact h2 a ha
  rw [Domain.doCommit]
  by_cases hrot : (d.parts.getLastD (0, DomainPart.fresh 0)).2.byteSize >
      d.config.partSizeLimit
  · rw [if_pos hrot]
    have hml : mapLast (fun q => (DomainPart.syncPart q).closePart) d.parts =
        d.parts.dropLast ++ [(kL.1, (DomainPart.syncPart kL.2).closePart)] := by
      conv_lhs => rw [← hdecomp]
      exact mapLast_append_last _ _ _
    have hmlkeys : ∀ kv ∈ mapLast (fun q => (DomainPart.syncPart q).closePart) d.parts,
        kv.1 < (c.data.entries.headD ⟨0, 0⟩).serial := by
      intro kv hkv
      rcases List.mem_map.mp (mapLast_keys_sub _ _ kv hkv) with ⟨kv0, hkv0, he⟩
      rw [← he]
      exact hkeys_lt kv0 hkv0
    have hins : insertPart (mapLast (fun q => (DomainPart.syncPart q).closePart) d.parts)
        (c.data.entries.headD ⟨0, 0⟩).serial
        (DomainPart.fresh (c.data.entries.headD ⟨0, 0⟩).serial) =
        mapLast (fun q => (DomainPart.syncPart q).closePart) d.parts ++
          [((c.data.entries.headD ⟨0, 0⟩).serial,
            DomainPart.fresh (c.data.entries.headD ⟨0, 0⟩).serial)] :=
      insertPart_append _ _ _ hmlkeys
    have hupd2 : ∀ (dp : DomainPart) (f : DomainPart → DomainPart),
        updateKey (mapLast (fun q => (DomainPart.syncPart q).closePart) d.parts ++
          [((c.data.entries.headD ⟨0, 0⟩).serial, dp)])
          (c.data.entries.headD ⟨0, 0⟩).serial f =
        mapLast (fun q => (DomainPart.syncPart q).closePart) d.parts ++
          [((c.data.entries.headD ⟨0, 0⟩).serial, f dp)] := by
      intro dp f
      exact updateKey_append_last _ _ _ _ (fun kv hm => Nat.ne_of_lt (hmlkeys kv hm))
    have hsorted2 : (mapLast (fun q => (DomainPart.syncPart q).closePart)
        d.parts).Pairwise (fun a b => a.1 < b.1) := by
      rw [hml]
      apply sorted_value_congr d.parts.dropLast kL.1 kL.2
      rw [hdecomp]
      exact hsorted
    have hkeyle2 : ∀ kv ∈ mapLast (fun q => (DomainPart.syncPart q).closePart) d.parts,
        kv.1 ≤ kv.2.range.toS := by
      rw [hml]
      intro kv hkv
      rcases List.mem_append.mp hkv with h1 | h2
      · exact hkeyle kv (by rw [← hdecomp]; exact List.mem_append_left _ h1)
      · have : kv = (kL.1, (DomainPart.syncPart kL.2).closePart) := by simpa using h2
        rw [this]
        exact hkeyle kL (by rw [← hdecomp]; simp)
    simp only [hkLD, hins, List.getLastD_concat, hupd2]
    by_cases hf : d.config.fsyncOnCommit = true
    · rw [if_pos hf]
      refine ⟨by simp, ?_, ?_, ?_, by trivial⟩
      · exact hsortcat _ _ hsorted2 hmlkeys
      · intro kv hkv
        rcases List.mem_append.mp hkv with h1 | h2
        · exact hkeyle2 kv h1
        · have : kv = ((c.data.entries.headD ⟨0, 0⟩).serial,
              DomainPart.syncPart ((DomainPart.fresh
                (c.data.entries.headD ⟨0, 0⟩).serial).commitPacket c.data)) := by
            simpa using h2
          rw [this]
          simp only [DomainPart.syncPart, DomainPart.commitPacket, DomainPart.fresh]
          omega
      · simp only [Domain.endSerial, List.getLast?_concat]
        simp [DomainPart.syncPart, DomainPart.commitPacket, DomainPart.fresh]
    · rw [if_neg hf]
      refine ⟨by simp, ?_, ?_, ?_, by trivial⟩
      · exact hsortcat _ _ hsorted2 hmlkeys
      · intro kv hkv
        rcases List.mem_append.mp hkv with h1 | h2
        · exact hkeyle2 kv h1
        · have : kv = ((c.data.entries.headD ⟨0, 0⟩).serial,
              (DomainPart.fresh
                (c.data.entries.headD ⟨0, 0⟩).serial).commitPacket c.data) := by
            simpa using h2
          rw [this]
          simp only [DomainPart.commitPacket, DomainPart.fresh]
          omega
      · simp only [Domain.endSerial, List.getLast?_concat]
        simp [DomainPart.syncPart, DomainPart.commitPacket, DomainPart.fresh]
  · rw [if_neg hrot]
    have hupd : ∀ f : DomainPart → DomainPart,
        updateKey d.parts kL.1 f = d.parts.dropLast ++ [(kL.1, f kL.2)] := by
      intro f
      conv_lhs => rw [← hdecomp]
      apply updateKey_append_last
      intro kv hm
      have h1 : kv.1 < kL.1 := by
        have hs2 := hsorted
        rw [← hdecomp] at hs2
        rw [List.pairwise_append] at hs2
        exact hs2.2.2 kv hm (kL.1, kL.2) (by simp)
      omega
    have hupd3 : ∀ (dp : DomainPart) (f : DomainPart → DomainPart),
        updateKey (d.parts.dropLast ++ [(kL.1, dp)]) kL.1 f =
        d.parts.dropLast ++ [(kL.1, f dp)] := by
      intro dp f
      apply updateKey_append_last
      intro kv hm
      have h1 : kv.1 < kL.1 := by
        have hs2 := hsorted
        rw [← hdecomp] at hs2
        rw [List.pairwise_append] at hs2
        exact hs2.2.2 kv hm (kL.1, kL.2) (by simp)
      omega
    have hsorted3 : ∀ dp : DomainPart,
        (d.parts.dropLast ++ [(kL.1, dp)]).Pairwise (fun a b => a.1 < b.1) := by
      intro dp
      apply sorted_value_congr d.parts.dropLast kL.1 kL.2
      rw [hdecomp]
      exact hsorted
    have hkeyle3 : ∀ dp : DomainPart, kL.1 ≤ dp.range.toS →
        ∀ kv ∈ d.parts.dropLast ++ [(kL.1, dp)], kv.1 ≤ kv.2.range.toS := by
      intro dp hdp kv hkv
      rcases List.mem_append.mp hkv with h1 | h2
      · exact hkeyle kv (by rw [← hdecomp]; exact List.mem_append_left _ h1)
      · have : kv = (kL.1, dp) := by simpa using h2
        rw [this]
        exact hdp
    simp only [hkLD, hupd]
    by_cases hf : d.config.fsyncOnCommit = true
    · rw [if_pos hf, hupd3]
      refine ⟨by simp, ?_, ?_, ?_, by trivial⟩
      · exact hsorted3 _
      · apply hkeyle3
        simp only [DomainPart.syncPart, DomainPart.commitPacket]
        exact hkLtos
      · simp only [Domain.endSerial, List.getLast?_concat]
        simp [DomainPart.syncPart, DomainPart.commitPacket, DomainPart.fresh]
    · rw [if_neg hf]
      refine ⟨by simp, ?_, ?_, ?_, by trivial⟩
      · exact hsorted3 _
      · apply hkeyle3
        simp only [DomainPart.commitPacket]
        exact hkLtos
      · simp only [Domain.endSerial, List.getLast?_concat]
        simp [DomainPart.syncPart, DomainPart.commitPacket, DomainPart.fresh]

theorem drainList_end : ∀ (cs : List Chunk) (d : Domain),
    d.parts ≠ [] →
    d.parts.Pairwise (fun a b => a.1 < b.1) →
    (∀ kv ∈ d.parts, kv.1 ≤ kv.2.range.toS) →
    (∀ c ∈ cs, c.data.wf) →
    chainFrom d.endSerial (cs.map Chunk.data) →
    (drainList d cs).endSerial = lastToD d.endSerial (cs.map Chunk.data) := by
  intro cs
  induction cs with
  | nil =>
    intro d _ _ _ _ _
    rfl
  | cons c cs ih =>
    intro d hpne hsorted hkeyle hwf hch
    have hstep := doCommit_step d c hpne hsorted hkeyle
      (hwf c (List.mem_cons_self c cs)) hch.1
    rw [drainList]
    rw [List.map_cons, lastToD_cons]
    have hch2 : chainFrom (d.doCommit c).1.endSerial (cs.map Chunk.data) := by
      rw [hstep.2.2.2.1]
      exact hch.2
    have := ih (d.doCommit c).1 hstep.1 hstep.2.1 hstep.2.2.1
      (fun c2 hc2 => hwf c2 (List.mem_cons_of_mem c hc2)) hch2
    rw [this, hstep.2.2.2.1]

theorem lastToD_getLastD (dflt : Nat) (ps : List Packet) (hne : ps ≠ []) :
    lastToD dflt ps = (ps.getLastD Packet.emptyP).range.toS := by
  rw [lastToD, List.getLastD_eq_getLast?]
  obtain ⟨p, hp⟩ : ∃ p, ps.getLast? = some p :=
    ⟨ps.getLast hne, List.getLast?_eq_getLast ps hne⟩
  rw [hp]
  rfl

/-- C2: starting from a quiescent well-formed domain (non-empty sorted
segment map, empty writer queue, fresh chunk, lastSerial equal to the
segment-set end), any sequence of well-formed packets whose ranges chain
upward from lastSerial commits without error, and once the destructor
flushes the active chunk and the single writer drains, end() equals the
range upper bound of the last committed packet. -/
theorem c2_end_after_drain (d : Domain) (ps : List Packet) (now : Nat)
    (hpne : d.parts ≠ [])
    (hsorted : d.parts.Pairwise (fun a b => a.1 < b.1))
    (hkeyle : ∀ kv ∈ d.parts, kv.1 ≤ kv.2.range.toS)
    (hq : d.queue = [])
    (hc : d.currentChunk = Chunk.fresh)
    (hls : d.lastSerial = d.endSerial)
    (hwf : ∀ p ∈ ps, p.wf)
    (hchain : chainFrom d.lastSerial ps)
    (hne : ps ≠ []) :
    ∃ d2, d.runCommits now ps = Except.ok d2 ∧
      ((d2.destruct).1).endSerial = (ps.getLastD Packet.emptyP).range.toS := by
  have hpipe0 : d.pipeline = [] := by
    simp [Domain.pipeline, hq, hc, Chunk.fresh, Packet.emptyP]
  have hinv0 : CommitInv d d.endSerial := by
    refine ⟨hpne, hsorted, hkeyle, ?_, ?_, ?_, hls.symm ▸ hls⟩
    · rw [hpipe0]; trivial
    · rw [hpipe0]; intro p hp; simp at hp
    · rw [hpipe0]; rfl
  rw [hls] at hchain
  obtain ⟨d2, hrun, hinv2⟩ := runCommits_inv now ps d d.endSerial hinv0 hwf hchain
  refine ⟨d2, hrun, ?_⟩
  -- the destructor grabs the active chunk, queues it when non-empty, drains
  have hq2 : (d2.grabCurrentChunk.1.commitChunk d2.grabCurrentChunk.2).1.queue.map
      Chunk.data = d2.pipeline := by
    by_cases hcc : d2.currentChunk.data.entries.isEmpty
    · simp [Domain.grabCurrentChunk, Domain.commitChunk, hcc, Domain.pipeline]
    · simp only [Domain.grabCurrentChunk, Domain.commitChunk]
      have hcc2 : d2.currentChunk.data.entries.isEmpty = false := by
        cases hh : d2.currentChunk.data.entries.isEmpty with
        | false => rfl
        | true => exact absurd hh hcc
      simp [hcc2, Domain.pipeline]
  have hparts2 : (d2.grabCurrentChunk.1.commitChunk d2.grabCurrentChunk.2).1.parts =
      d2.parts := by
    by_cases hcc : d2.currentChunk.data.entries.isEmpty
    · simp [Domain.grabCurrentChunk, Domain.commitChunk, hcc]
    · have hcc2 : d2.currentChunk.data.entries.isEmpty = false := by
        cases hh : d2.currentChunk.data.entries.isEmpty with
        | false => rfl
        | true => exact absurd hh hcc
      simp [Domain.grabCurrentChunk, Domain.commitChunk, hcc2]
  have hend2 : (d2.grabCurrentChunk.1.commitChunk d2.grabCurrentChunk.2).1.endSerial =
      d2.endSerial := by
    rw [Domain.endSerial, Domain.endSerial, hparts2]
  rw [Domain.destruct]
  simp only [Domain.drainAll]
  have hdrain := drainList_end
    (d2.grabCurrentChunk.1.commitChunk d2.grabCurrentChunk.2).1.queue
    {(d2.grabCurrentChunk.1.commitChunk d2.grabCurrentChunk.2).1 with queue := []}
    (by simp only [hparts2]; exact hinv2.pne)
    (by simp only [hparts2]; exact hinv2.sorted)
    (by simp only [hparts2]; exact hinv2.keyle)
    (by
      intro c2 hc2
      have : c2.data ∈ d2.pipeline := by
        rw [← hq2]
        exact List.mem_map_of_mem Chunk.data hc2
      exact hinv2.wfall _ this)
    (by
      have he : Domain.endSerial
          {(d2.grabCurrentChunk.1.commitChunk d2.grabCurrentChunk.2).1 with
            queue := []} = d2.endSerial := by
        rw [Domain.endSerial, Domain.endSerial]
        simp only [hparts2]
      rw [he, hq2]
      exact hinv2.chain)
  have he2 : Domain.endSerial
      {(d2.grabCurrentChunk.1.commitChunk d2.grabCurrentChunk.2).1 with
        queue := []} = d2.endSerial := by
    rw [Domain.endSerial, Domain.endSerial]
    simp only [hparts2]
  rw [hdrain, he2, hq2]
  have := hinv2.lastto
  rw [this]
  exact lastToD_getLastD d.endSerial ps hne

/-! Witnesses: each claim theorem with hypotheses applied at a concrete input. -/

theorem c1_commit_protocol_witness :
    exD6.commit exPacket 0 5 =
      ({exD6 with lastSerial := 10, currentChunk := exD6.currentChunk.add exPacket 0 5},
       Except.ok false) := by
  rw [(c1_commit_protocol exD6 exPacket 0 5).2 (by decide)]
  rfl

theorem c2_end_after_drain_witness :
    (exD2.runCommits 5 exPs).map (fun d2 => ((d2.destruct).1).endSerial) =
      Except.ok 4 := by
  obtain ⟨d2, hrun, hend⟩ := c2_end_after_drain exD2 exPs 5 (by decide) (by decide)
    (by decide) rfl rfl (by decide) (by decide) (by decide) (by decide)
  rw [hrun]
  simp only [Except.map]
  rw [hend]
  rfl

theorem c3_rotation_witness :
    (exD3.doCommit exChunk3).2 =
      [Ev.waitSync, Ev.forceSync, Ev.closePart 0, Ev.openPart 6,
       Ev.writePart 6 exChunk3.data, Ev.syncPart 6] := by
  rw [c3_rotation exD3 exChunk3 (by decide) (by decide)]
  decide

theorem c4_erase_amended_witness :
    (exD4.erase 7).parts ≠ [] ∧ exD4.beginSerial ≤ (exD4.erase 7).beginSerial ∧
      (exD4.erase 7).beginSerial ≤ max 7 exD4.beginSerial := by
  obtain ⟨h1, h2, h3, h4, h5, h6⟩ := c4_erase_amended exD4 7 (by decide) (by decide)
    (by exact List.chain'_singleton _) (by decide) (by decide)
  exact ⟨h1, h5, h6⟩

theorem c5_getSynced_witness : exDomain.getSynced = (5, exPart5).2.synced :=
  (c5_getSynced exDomain).2.1 (5, exPart5) (by decide) (by decide)

theorem c6_findPart_amended_witness : exDomain.findPart 3 = some exPart0 :=
  (c6_findPart_amended exDomain 3 (by decide) (by decide)).1 (0, exPart0) (by decide)

theorem c7_commitIfStale_witness :
    exDomainStale.commitIfStale 100 =
      ({exDomainStale with
          currentChunk := Chunk.fresh,
          queue := exDomainStale.queue ++ [exDomainStale.currentChunk]}, true) :=
  (c7_commitIfStale exDomainStale 100).2.1 (by decide)

theorem c9_startSession_witness :
    (exDomain.startSession 7 false 42).2 = -1 ∧
      (exDomain.startSession 7 false 42).1.sessions.lookup 7 = none :=
  (c9_startSession exDomain 7 false 42 (by decide)).2.2 ⟨0, false, false⟩ (by decide) rfl

theorem c10_commitChunk_empty_witness :
    (exDomain.commitChunk exChunk3).2 = true ∧ (exDomain.destruct).2 = exDomain.queue :=
  ⟨((c10_commitChunk_empty exDomain exChunk3).1).mpr (by decide),
   (c10_commitChunk_empty exDomain Chunk.fresh).2.2.2 (by decide)⟩

end TransLog
